import Mathlib

/-
  Verification development for the optical-paper PDF translator (src/main.py).

  The Python source is shallowly embedded: pure text/geometry logic is
  translated to executable Lean functions over `List Char` / `ℚ`; the
  external capabilities (PDF rasterization, pixel scoring, the network
  translation call) are passed in as explicit oracle functions, and the
  mutable session state (LRU cache, error log, number of network
  invocations made) is threaded as an explicit state value.

  Coordinates and scores are modelled as rationals (the Python floats are
  IEEE doubles; all constants of the source are short decimals, compared
  against sums/quotients of block coordinates, and no claim hinges on a
  sub-ulp distinction).  Python `len` on a `str` counts code points, which
  matches `List.length` on `String.data`.
-/

/- Batteries marks the rational-number operations irreducible, which
stops `decide` from evaluating concrete pages; re-allow unfolding them. -/
attribute [local semireducible] Rat.add Rat.mul Rat.sub Rat.inv Rat.ofScientific

/-! Basic Python-string helpers. -/

/-- The characters Python's `str.strip()` and the `re` class `\s` treat as
whitespace (ASCII part; exotic Unicode spaces do not occur in this
program's inputs and are not modelled). -/
def pyIsSpace (c : Char) : Bool :=
  c = ' ' || c = '\t' || c = '\n' || c = '\r' || c = '\x0b' || c = '\x0c'

/-- Remove the longest trailing run of characters satisfying `p`
(structurally recursive form of reverse-dropWhile-reverse). -/
def dropEndWhile (p : Char → Bool) : List Char → List Char
  | [] => []
  | c :: rest =>
    let r := dropEndWhile p rest
    if r.isEmpty then (if p c then [] else [c]) else c :: r

/-- Python `str.strip()` on a list of characters: drop leading and
trailing whitespace. -/
def pyStrip (l : List Char) : List Char :=
  dropEndWhile pyIsSpace (l.dropWhile pyIsSpace)

/-- Python `str.strip()` on a `String`. -/
def pyStripStr (s : String) : String := String.mk (pyStrip s.data)

/-- ASCII digit, the `\d` of the source's regular expressions (Python `\d`
also accepts Unicode digits, which do not occur in these documents). -/
def pyIsDigit (c : Char) : Bool := '0' ≤ c && c ≤ '9'

/-- ASCII letter, the `[a-zA-Z]` class of the source's regular expressions. -/
def isAsciiLetter (c : Char) : Bool := ('a' ≤ c && c ≤ 'z') || ('A' ≤ c && c ≤ 'Z')

/-! Geometry: `fitz.Rect` with top-left origin, y growing downwards. -/

/-- A PyMuPDF rectangle: `x0,y0` is the top-left corner, `x1,y1` the
bottom-right one (y grows downwards). -/
structure Rect where
  x0 : ℚ
  y0 : ℚ
  x1 : ℚ
  y1 : ℚ
deriving DecidableEq, Repr

/-- PyMuPDF `Rect.height` (`abs(y1 - y0)`). -/
def Rect.height (r : Rect) : ℚ := |r.y1 - r.y0|

/-- A parsed PDF page as delivered by the extraction capability
(`page.get_text("blocks")`): its geometry plus the raw text blocks. -/
structure Page where
  width : ℚ
  height : ℚ
  blocks : List (Rect × String)

/-- Python's `int(...)` on a rational (truncation towards zero), computed
directly from the numerator and denominator so that it evaluates inside
the kernel. -/
def pyTrunc (q : ℚ) : ℚ :=
  if q.num < 0 then -(((q.num.natAbs / q.den : ℕ) : ℚ)) else ((q.num.natAbs / q.den : ℕ) : ℚ)

/-! A stable-enough insertion sort keyed by a rational, used to model the
Python `list.sort(key=...)` calls (the claims below never depend on the
relative order of equal keys). -/

/-- Insert `a` in front of the first element with key ≥ its own. -/
def insertByKey {α : Type} (key : α → ℚ) (a : α) : List α → List α
  | [] => [a]
  | b :: l => if key a ≤ key b then a :: b :: l else b :: insertByKey key a l

/-- Sort by a rational key (insertion sort). -/
def sortByKey {α : Type} (key : α → ℚ) : List α → List α
  | [] => []
  | a :: l => insertByKey key a (sortByKey key l)

/-! Section 2 of src/main.py: the caption / header-footer classifiers. -/

/-- `is_header_or_footer(rect, page_height)` from src/main.py: the block
lies entirely above the 6% line (`y1 < 0.06*h`) or entirely below the 94%
line (`y0 > 0.94*h`). -/
def is_header_or_footer (rect : Rect) (page_height : ℚ) : Bool :=
  decide (rect.y1 < page_height * (6/100)) || decide (page_height * (94/100) < rect.y0)

/-- Predicate following the spec's words for the header/footer test (the
claim's phrasing): the rectangle's TOP edge (`y0`) lies within the top 6%
band, or its BOTTOM edge (`y1`) lies within the bottom 6% band.  Kept
separate from `is_header_or_footer` (the source's test) for comparison. -/
def is_header_or_footer_specEdges (rect : Rect) (page_height : ℚ) : Bool :=
  decide (rect.y0 < page_height * (6/100)) || decide (page_height * (94/100) < rect.y1)

/-- The literal alternatives of `_CAPTION_RE` (each must be followed by
`\s*` and a digit; the trailing optional colon/period group cannot make a
match fail and so does not affect `re.match` success). -/
def capLits : List (List Char) :=
  ["Fig.".data, "FIG.".data, "Figure".data, "FIGURE".data,
   "Tab.".data, "TAB.".data, "Table".data, "TABLE".data,
   "图".data, "表".data]

/-- Consume a literal from the front of `l`; `some rest` on success. -/
def litMatch (lit : List Char) (l : List Char) : Option (List Char) :=
  match lit, l with
  | [], rest => some rest
  | _ :: _, [] => none
  | a :: ls, b :: rest => if a = b then litMatch ls rest else none

/-- After a matched literal: `\s*\d+` requires that, skipping whitespace,
a digit follows (greediness of `\s*` cannot lose a match: fewer skipped
spaces would put a space where the digit is required). -/
def capAfterLit (rest : List Char) : Bool :=
  match rest.dropWhile pyIsSpace with
  | c :: _ => pyIsDigit c
  | [] => false

/-- Success of `_CAPTION_RE.match` (an anchored prefix match): optional
leading whitespace, one of the literal alternatives, optional whitespace,
then a digit. -/
def capMatch (l : List Char) : Bool :=
  capLits.any (fun lit =>
    match litMatch lit (l.dropWhile pyIsSpace) with
    | some rest => capAfterLit rest
    | none => false)

/-- `is_caption_node(text)` from src/main.py. -/
def is_caption_node (text : String) : Bool :=
  let t := pyStrip text.data
  if t.isEmpty then false else capMatch t

/-- Predicate following the spec's words for the caption test: the same
prefixes matched CASE-INSENSITIVELY ("Fig."/"Figure"/"Tab."/"Table"
followed by a digit, or 图/表 followed by a digit).  Kept separate from
`is_caption_node` (the source's test) for comparison. -/
def is_caption_specCI (text : String) : Bool :=
  let t := (pyStrip text.data).map Char.toLower
  ["fig.".data, "figure".data, "tab.".data, "table".data,
   "图".data, "表".data].any (fun lit =>
    match litMatch lit (t.dropWhile pyIsSpace) with
    | some rest => capAfterLit rest
    | none => false)

/-! Section 4 of src/main.py: the image-vs-formula discriminator. -/

/-- The character class of "math symbols" used by `is_formula_like_text`. -/
def mathSymbols : List Char :=
  ['=', '+', '-', '*', '/', '^', '_', '{', '}', '[', ']', '<', '>',
   '∑', '∫', '√', '≈', '≠', '≤', '≥', '±', 'λ', 'μ', 'σ', 'Ω', 'π',
   '∞', '→', '←', '×', '·']

/-- Python's `\w` (word constituent) restricted to the character ranges
that occur in this program's inputs: ASCII alphanumerics, underscore,
Greek letters (the variable names of optics papers) and CJK ideographs.
Word-boundary reasoning: `\b[a-zA-Z]\b` matches exactly the maximal
word-constituent runs that consist of one ASCII letter, and
`\b[a-zA-Z]{3,}\b` exactly the maximal runs of ≥ 3 characters that are all
ASCII letters (no boundary can fall inside a run). -/
def isWordChar (c : Char) : Bool :=
  c.isAlphanum || c = '_' ||
  (0x370 ≤ c.toNat && c.toNat ≤ 0x3ff) ||
  (0x4e00 ≤ c.toNat && c.toNat ≤ 0x9fff)

/-- Maximal runs of word-constituent characters (tail-recursive worker;
`cur` holds the current run reversed). -/
def wordRunsAux : List Char → List Char → List (List Char)
  | [], cur => if cur.isEmpty then [] else [cur.reverse]
  | c :: rest, cur =>
    if isWordChar c then wordRunsAux rest (c :: cur)
    else if cur.isEmpty then wordRunsAux rest []
    else cur.reverse :: wordRunsAux rest []

/-- Maximal runs of word-constituent characters of a string. -/
def wordRuns (l : List Char) : List (List Char) := wordRunsAux l []

/-- A token counted by the single-letter-variable findall of
`is_formula_like_text`. -/
def isSingleLetterTok : List Char → Bool
  | [c] => isAsciiLetter c
  | _ => false

/-- A token counted by the natural-language-word findall of
`is_formula_like_text` (three or more ASCII letters). -/
def isWordTok (t : List Char) : Bool :=
  decide (3 ≤ t.length) && t.all isAsciiLetter

/-- `is_formula_like_text(text)` from src/main.py: conservative test for
formula-shaped text (symbol density, single-letter-variable ratio, few
natural-language words, length at least 25). -/
def is_formula_like_text (text : String) : Bool :=
  let t := pyStrip text.data
  if t.length < 25 then false
  else
    let symbol_count := (t.filter (fun c => mathSymbols.contains c)).length
    let single_letters := ((wordRuns t).filter isSingleLetterTok).length
    let words := ((wordRuns t).filter isWordTok).length
    let symbol_ratio : ℚ := (symbol_count : ℚ) / ((max 1 t.length : ℕ) : ℚ)
    let single_letter_ratio : ℚ :=
      (single_letters : ℚ) / ((max 1 (words + single_letters) : ℕ) : ℚ)
    decide ((12 : ℚ)/100 < symbol_ratio) &&
    decide ((55 : ℚ)/100 < single_letter_ratio) &&
    decide (words < 8)

/-- The pure decision core of `should_keep_cropped_region(page, rect)`:
`txt` is the text extracted inside the rectangle, `vscore` the visual
score of the low-zoom probe raster. -/
def should_keep_core (txt : String) (vscore : ℚ) : Bool :=
  let txt_stripped := pyStrip txt.data
  if txt_stripped.length < 10 then decide (35 ≤ vscore)
  else if is_formula_like_text (String.mk txt_stripped) = false then decide (40 ≤ vscore)
  else decide (62 ≤ vscore)

/-- The external capabilities `should_keep_cropped_region` and
`parse_page` draw on, as oracle functions of the candidate rectangle:
`extract_text_in_rect` (PDF text extraction inside a clip),
`image_visual_score` of the zoom-1.3 probe raster (pixel statistics of an
externally produced raster), and whether the zoom-2.0 crop of
`clip_rect_to_image` succeeded with pixel dimensions at least 120×80. -/
structure Oracles where
  regionText : Rect → String
  probeScore : Rect → ℚ
  renderOk : Rect → Bool

/-- `should_keep_cropped_region(page, rect)` from src/main.py, over the
extraction/rasterization oracles. -/
def should_keep_cropped_region (oc : Oracles) (r : Rect) : Bool :=
  should_keep_core (oc.regionText r) (oc.probeScore r)

/-! Section 3 of src/main.py: translation cache, retry, chunking. -/

/-- The bounded LRU cache backed by an `OrderedDict` (most recently used
at the END of `data`; keys are unique). -/
structure LRUCache where
  max_size : ℕ
  data : List (String × String)
deriving DecidableEq, Repr

/-- Key lookup in the backing list (no recency update). -/
def lruLookup (data : List (String × String)) (k : String) : Option String :=
  match data.find? (fun p => p.1 == k) with
  | some p => some p.2
  | none => none

/-- `LRUCache.get`: on a hit the entry moves to the most-recent end. -/
def LRUCache.get (c : LRUCache) (k : String) : Option String × LRUCache :=
  match lruLookup c.data k with
  | none => (none, c)
  | some v => (some v, ⟨c.max_size, c.data.filter (fun p => !(p.1 == k)) ++ [(k, v)]⟩)

/-- `LRUCache.set`: insert/update at the most-recent end, then evict from
the least-recent front while over capacity. -/
def LRUCache.set (c : LRUCache) (k v : String) : LRUCache :=
  let d := c.data.filter (fun p => !(p.1 == k)) ++ [(k, v)]
  ⟨c.max_size, d.drop (d.length - c.max_size)⟩

/-- `_cache_key(text, is_caption)` from src/main.py.  The source applies
`hashlib.sha256(...).hexdigest()` to exactly this string; the hash is
modelled as the identity on its input, because the program only ever
compares keys for equality and SHA-256 is treated as collision-free. -/
def _cache_key (text : String) (is_caption : Bool) : String :=
  text ++ (if is_caption then "|cap" else "|txt")

/-- Python `"\n\n".split`-style paragraph splitting: split on
non-overlapping occurrences of two newlines, left to right. -/
def splitOnPara : List Char → List (List Char)
  | [] => [[]]
  | '\n' :: '\n' :: rest => [] :: splitOnPara rest
  | c :: rest =>
    match splitOnPara rest with
    | [] => [[c]]
    | h :: tl => (c :: h) :: tl

/-- The sentence-final punctuation class of the splitter's lookbehind. -/
def sentPunct (c : Char) : Bool :=
  c = '。' || c = '！' || c = '？' || c = '.' || c = '!' || c = '?' || c = ';' || c = '；'

/-- Sentence splitting: Python `re.split` with a whitespace-run pattern
guarded by a lookbehind for sentence punctuation.  `cur` is the current
segment reversed; a cut consumes the whole whitespace run. -/
def splitSentAux : List Char → List Char → List (List Char)
  | [], cur => [cur.reverse]
  | c :: rest, cur =>
    if pyIsSpace c && (match cur with | p :: _ => sentPunct p | [] => false) then
      cur.reverse :: splitSentAux (rest.dropWhile pyIsSpace) []
    else
      splitSentAux rest (c :: cur)
termination_by l _ => l.length
decreasing_by
  · have := (List.dropWhile_sublist (l := rest) pyIsSpace).length_le
    simp only [List.length_cons]
    omega
  · simp only [List.length_cons]
    omega

/-- Sentence splitting of a paragraph. -/
def splitSent (l : List Char) : List (List Char) := splitSentAux l []

/-- One step of the sentence loop of `_split_text_for_translation`:
state is (emitted parts, current sentence buffer). -/
def sentStep (maxc : ℕ) (st : List (List Char) × List Char) (seg0 : List Char) :
    List (List Char) × List Char :=
  let seg := pyStrip seg0
  if seg.isEmpty then st
  else
    let parts := st.1
    let sent_buf := st.2
    if sent_buf.length + seg.length + 1 ≤ maxc then
      (parts, pyStrip (sent_buf ++ [' '] ++ seg))
    else
      ((if sent_buf.isEmpty then parts else parts ++ [sent_buf]), seg)

/-- One step of the paragraph loop of `_split_text_for_translation`:
state is (emitted parts, current paragraph buffer). -/
def paraStep (maxc : ℕ) (st : List (List Char) × List Char) (para0 : List Char) :
    List (List Char) × List Char :=
  let para := pyStrip para0
  if para.isEmpty then st
  else
    let parts := st.1
    let buf := st.2
    if buf.length + para.length + 2 ≤ maxc then
      (parts, pyStrip (buf ++ ['\n', '\n'] ++ para))
    else
      let parts1 := if buf.isEmpty then parts else parts ++ [buf]
      if maxc < para.length then
        let sres := (splitSent para).foldl (sentStep maxc) (parts1, [])
        ((if sres.2.isEmpty then sres.1 else sres.1 ++ [sres.2]), [])
      else
        (parts1, para)

/-- `_split_text_for_translation(text, max_chars)` from src/main.py. -/
def _split_text_for_translation (text : String) (maxc : ℕ := 2500) : List String :=
  let t := pyStrip text.data
  if t.length ≤ maxc then [String.mk t]
  else
    let res := (splitOnPara t).foldl (paraStep maxc) ([], [])
    ((if res.2.isEmpty then res.1 else res.1 ++ [res.2]).map String.mk)

/-- Python `"\n\n".join`. -/
def joinNN (l : List String) : String :=
  match l with
  | [] => ""
  | h :: t => t.foldl (fun acc s => acc ++ "\n\n" ++ s) h

/-- Outcome of the per-chunk retry loop: translated, exhausted with a last
error, or skipped because the retry count was zero (the loop body never
ran, `last_err` stayed `None` and nothing was appended). -/
inductive PartOutcome where
  | ok (s : String)
  | failed (e : String)
  | skipped
deriving DecidableEq, Repr

/-- The bounded retry loop of `translate_text` for one chunk.  The
external LLM call is the oracle, indexed by how many network invocations
the process has made so far; the returned counter says how many
invocations the loop consumed. -/
def attemptLoop (oracle : ℕ → Except String String) (counter : ℕ) :
    ℕ → PartOutcome × ℕ
  | 0 => (.skipped, counter)
  | n + 1 =>
    match oracle counter with
    | .ok s => (.ok s, counter + 1)
    | .error e =>
      match attemptLoop oracle (counter + 1) n with
      | (.skipped, c) => (.failed e, c)
      | r => r

/-- The per-process translation session state: the LRU cache
(`_TRANSLATION_CACHE`), the job-scoped error log
(`st.session_state["translate_errors"]`) and the number of external
network invocations made so far. -/
structure TState where
  cache : LRUCache
  errors : List String
  counter : ℕ
deriving DecidableEq, Repr

/-- The state at process start: an empty cache of capacity 2500, an empty
error log, no network invocations yet. -/
def initState : TState := ⟨⟨2500, []⟩, [], 0⟩

/-- One chunk of the translation loop of `translate_text`: on success the
translation is appended to `out_parts`; on exhausted retries the error is
logged and the chunk itself is appended; with zero retries nothing
happens. State is (out_parts, error log, invocation counter). -/
def chunkStep (oracle : ℕ → Except String String) (retries : ℕ)
    (acc : List String × List String × ℕ) (part : String) :
    List String × List String × ℕ :=
  match attemptLoop oracle acc.2.2 retries with
  | (.ok s, c) => (acc.1 ++ [s], acc.2.1, c)
  | (.failed e, c) => (acc.1 ++ [part], acc.2.1 ++ [e], c)
  | (.skipped, c) => (acc.1, acc.2.1, c)

/-- `translate_text(text, is_caption, retries)` from src/main.py: early
return for near-empty text, cache lookup, chunking, per-chunk bounded
retry with fallback to the source chunk, cache fill.  The function is
total: every failure of the external call is caught (nothing is raised),
matching the source's blanket `except`. -/
def translate_text (oracle : ℕ → Except String String) (st : TState)
    (text : String) (is_caption : Bool := false) (retries : ℕ := 3) :
    String × TState :=
  let raw := text
  if (pyStrip raw.data).length < 2 then (raw, st)
  else
    let ck := _cache_key raw is_caption
    match st.cache.get ck with
    | (some cached, cache1) => (cached, { st with cache := cache1 })
    | (none, _) =>
      let parts := _split_text_for_translation raw 2500
      let res := parts.foldl (chunkStep oracle retries) ([], st.errors, st.counter)
      let final := pyStripStr (joinNN res.1)
      (final, ⟨st.cache.set ck final, res.2.1, res.2.2⟩)

/-! Section 4/5 of src/main.py: gap-band extraction and page assembly. -/

/-- The y-interval merging loop of `build_gap_rects_from_text_blocks`
(`cur` is the interval being grown; input sorted by `y0`). -/
def mergeGo (cur : Rect) : List Rect → List Rect
  | [] => [cur]
  | r :: rest =>
    if r.y0 ≤ cur.y1 + 2 then
      mergeGo ⟨min cur.x0 r.x0, cur.y0, max cur.x1 r.x1, max cur.y1 r.y1⟩ rest
    else
      cur :: mergeGo r rest

/-- Merge overlapping/contiguous (gap ≤ 2) y-intervals of a sorted list. -/
def mergeRun : List Rect → List Rect
  | [] => []
  | r :: rest => mergeGo r rest

/-- The gap walk of `build_gap_rects_from_text_blocks`: emit a candidate
rectangle for every inter-interval blank band of height at least
`min_gap_height`, plus the final band down to the safe bottom. -/
def gapWalk (x0 x1 safe_bottom min_gap_height : ℚ) (last_y : ℚ) :
    List Rect → List Rect
  | [] =>
    if min_gap_height ≤ safe_bottom - last_y then [⟨x0, last_y, x1, safe_bottom⟩] else []
  | r :: rest =>
    let gap_top := last_y
    let gap_bottom := min r.y0 safe_bottom
    (if min_gap_height ≤ gap_bottom - gap_top then [(⟨x0, gap_top, x1, gap_bottom⟩ : Rect)] else [])
      ++ gapWalk x0 x1 safe_bottom min_gap_height (max last_y r.y1) rest

/-- The block filter shared by `build_gap_rects_from_text_blocks` and
`parse_page`: drop header/footer blocks and blocks whose text is blank. -/
def keptBlocks (page : Page) : List (Rect × String) :=
  page.blocks.filter
    (fun b => !(is_header_or_footer b.1 page.height) && !(pyStrip b.2.data).isEmpty)

/-- `build_gap_rects_from_text_blocks(page, ...)` from src/main.py. -/
def build_gap_rects_from_text_blocks (page : Page)
    (min_gap_height top_margin bottom_margin side_margin : ℚ) : List Rect :=
  let text_rects := (keptBlocks page).map Prod.fst
  if text_rects.isEmpty then []
  else
    let sorted := sortByKey Rect.y0 text_rects
    let merged := mergeRun sorted
    let safe_top := max top_margin (pyTrunc (page.height * (6/100)))
    let safe_bottom := min (page.height - bottom_margin) (pyTrunc (page.height * (94/100)))
    gapWalk side_margin (page.width - side_margin) safe_bottom min_gap_height safe_top merged

/-- An element of the output stream of `parse_page`, instrumented with its
provenance: a text element carries the source blocks merged into its
buffer (the emitted string is their concatenation, each followed by a
blank line), an image element the gap rectangle it was cropped from, a
caption element its source block. -/
inductive PElem where
  | text (blocks : List (Rect × String))
  | image (r : Rect)
  | caption (r : Rect) (content : String)
deriving DecidableEq, Repr

/-- An entry of the merged text/caption event stream of `parse_page`
(`cap = true` for caption blocks). -/
structure Ev where
  cap : Bool
  r : Rect
  t : String
deriving DecidableEq, Repr

/-- The accumulated buffer string of the assembly loop
(`buffer += t + "\n\n"`). -/
def textContent (blocks : List (Rect × String)) : String :=
  blocks.foldl (fun acc b => acc ++ b.2 ++ "\n\n") ""

/-- `flush_buffer()`: emit the pending text element if its content is not
blank. -/
def flushB (buf : List (Rect × String)) : List PElem :=
  if (pyStrip (textContent buf).data).isEmpty then [] else [.text buf]

/-- The assembly loop of `parse_page` (step 4): walk the y-sorted event
stream; before each event flush every pending image whose `y0` is at most
the event's `y0 + 2` (flushing the text buffer first); captions flush the
buffer, text accumulates into it; trailing images are appended at the
end. -/
def assembleGo (imgs : List Rect) (buf : List (Rect × String)) :
    List Ev → List PElem
  | [] => flushB buf ++ imgs.map PElem.image
  | e :: rest =>
    let fired := imgs.takeWhile (fun i => i.y0 ≤ e.r.y0 + 2)
    let rem := imgs.dropWhile (fun i => i.y0 ≤ e.r.y0 + 2)
    if e.cap then
      flushB buf ++ fired.map PElem.image ++ (PElem.caption e.r e.t :: assembleGo rem [] rest)
    else
      if fired.isEmpty then assembleGo imgs (buf ++ [(e.r, e.t)]) rest
      else flushB buf ++ fired.map PElem.image ++ assembleGo rem [(e.r, e.t)] rest

/-- Step 3 of `parse_page`: the gap rectangles that survive the quick
height filter, the image-vs-formula discriminator, and the final crop
(render succeeded with pixel dimensions at least 120×80). -/
def croppedRects (oc : Oracles) (page : Page)
    (min_gap_height top_margin bottom_margin side_margin : ℚ) : List Rect :=
  (build_gap_rects_from_text_blocks page min_gap_height top_margin bottom_margin
      side_margin).filter
    (fun gr => !(decide (gr.height < min_gap_height))
      && should_keep_cropped_region oc gr && oc.renderOk gr)

/-- Steps 1 and 4a of `parse_page`: split the kept blocks into caption and
plain-text items, sort each by `y0`, and merge them into one y-sorted
event stream (`cap = true` marks captions). -/
def pageEvents (page : Page) : List Ev :=
  let kept := keptBlocks page
  let caption_items := kept.filter (fun b => is_caption_node b.2)
  let text_items := kept.filter (fun b => !(is_caption_node b.2))
  let caps := sortByKey (fun b => b.1.y0) caption_items
  let txts := sortByKey (fun b => b.1.y0) text_items
  sortByKey (fun e => e.r.y0)
    (txts.map (fun b => ⟨false, b.1, b.2⟩) ++ caps.map (fun b => ⟨true, b.1, b.2⟩))

/-- `parse_page(page, ...)` from src/main.py, up to and including step 4
(element stream construction).  Step 5, `batch_translate_elements`, only
rewrites the content strings of text/caption elements in place via
`translate_text` (modelled separately above) and does not change the
number, kind, order or provenance of elements. -/
def parse_page (oc : Oracles) (page : Page)
    (min_gap_height top_margin bottom_margin side_margin : ℚ) : List PElem :=
  assembleGo
    (sortByKey Rect.y0 (croppedRects oc page min_gap_height top_margin bottom_margin side_margin))
    [] (pageEvents page)

/-- The y0-coordinates of the source blocks/regions of one element. -/
def elemY0s : PElem → List ℚ
  | .text blocks => blocks.map (fun b => b.1.y0)
  | .image r => [r.y0]
  | .caption r _ => [r.y0]

/-- The flattened sequence of source y0-coordinates along an element
stream. -/
def traceY0 : List PElem → List ℚ
  | [] => []
  | e :: l => elemY0s e ++ traceY0 l

/-- Source blocks of an element: the blocks a text element merged, or the
block a caption came from (image elements come from gap rectangles, not
from blocks). -/
def elemSrc : PElem → Rect × String → Prop
  | .text bs, b => b ∈ bs
  | .caption r t, b => b = (r, t)
  | .image _, _ => False

/-! Concrete fixtures used by counterexamples and witnesses. -/

/-- Oracles for a region that renders as a strongly pictorial raster with
no text inside. -/
def ocPicture : Oracles := ⟨fun _ => "", fun _ => 100, fun _ => true⟩

/-- Oracles for a region that renders nearly blank. -/
def ocBlank : Oracles := ⟨fun _ => "", fun _ => 0, fun _ => true⟩

/-- A page (height 1000) with a thin paragraph block just above a wide
blank band and a second paragraph far below: the band top (y = 101) lies
within 2 units above … i.e. at most 2 units below … no: within the +2
flush tolerance of the first block's top (y = 100). -/
def pageTol : Page :=
  ⟨600, 1000, [(⟨100, 100, 300, 101⟩, "alpha beta"), (⟨100, 400, 300, 900⟩, "gamma delta")]⟩

/-- A page of height 1001: `int(1001 * 0.06) = 60`, strictly below the
exact band boundary 60.06. -/
def pageFloor : Page :=
  ⟨600, 1001, [(⟨100, 300, 300, 900⟩, "body text")]⟩

/-- A one-block page with no usable gaps (used by witnesses). -/
def pageSimple : Page :=
  ⟨600, 1000, [(⟨100, 300, 300, 320⟩, "hi there")]⟩

/-- An external call that always fails. -/
def oracleDown : ℕ → Except String String := fun _ => .error "connection error"

/-- An external call that always succeeds with a fixed translation. -/
def oracleOk : ℕ → Except String String := fun _ => .ok "译文"

/-- A string of `n` copies of `z` (distinct lengths give distinct cache
keys, used to fill the LRU cache). -/
def zText (n : ℕ) : String := String.mk (List.replicate n 'z')

/-- 2499 pairwise distinct texts of lengths 2..2500. -/
def fillTexts : List String := (List.range 2499).map (fun i => zText (i + 2))

/-- One more distinct text (length 2501). -/
def lastFill : String := zText 2501

/-- Run a translation call for its state effect only. -/
def transStep (oracle : ℕ → Except String String) (s : TState) (t : String) : TState :=
  (translate_text oracle s t false 3).2



/-! Helper lemmas: Python strip. -/

theorem dropEndWhile_length_le (p : Char → Bool) (l : List Char) :
    (dropEndWhile p l).length ≤ l.length := by
  induction l with
  | nil => simp [dropEndWhile]
  | cons c rest ih =>
    by_cases h : (dropEndWhile p rest).isEmpty
    · by_cases hp : p c <;> simp [dropEndWhile, h, hp]
    · simp [dropEndWhile, h]
      omega

theorem pyStrip_length_le (l : List Char) : (pyStrip l).length ≤ l.length := by
  unfold pyStrip
  exact (dropEndWhile_length_le _ _).trans (List.dropWhile_sublist _).length_le

theorem dropEndWhile_head (p : Char → Bool) (c : Char) (rest : List Char) :
    dropEndWhile p (c :: rest) = [] ∨ ∃ t, dropEndWhile p (c :: rest) = c :: t := by
  by_cases h : (dropEndWhile p rest).isEmpty
  · by_cases hp : p c
    · left; simp [dropEndWhile, h, hp]
    · right; exact ⟨[], by simp [dropEndWhile, h, hp]⟩
  · right; exact ⟨dropEndWhile p rest, by simp [dropEndWhile, h]⟩

theorem dropEndWhile_idem (p : Char → Bool) (l : List Char) :
    dropEndWhile p (dropEndWhile p l) = dropEndWhile p l := by
  induction l with
  | nil => simp [dropEndWhile]
  | cons c rest ih =>
    by_cases h : (dropEndWhile p rest).isEmpty
    · by_cases hp : p c
      · simp [dropEndWhile, h, hp]
      · simp [dropEndWhile, h, hp]
    · have hstep : dropEndWhile p (c :: rest) = c :: dropEndWhile p rest := by
        simp [dropEndWhile, h]
      rw [hstep, dropEndWhile, ih]
      simp [h]

theorem pyStrip_no_leading (l : List Char) :
    (pyStrip l).dropWhile pyIsSpace = pyStrip l := by
  unfold pyStrip
  rcases hm : l.dropWhile pyIsSpace with _ | ⟨c, t⟩
  · simp [dropEndWhile]
  · have hc : pyIsSpace c = false := by
      have := List.head?_dropWhile_not pyIsSpace l
      rw [hm] at this
      simpa using this
    rcases dropEndWhile_head pyIsSpace c t with h | ⟨t', h⟩
    · simp [h]
    · rw [h, List.dropWhile_cons, hc]
      simp

theorem pyStrip_idem (l : List Char) : pyStrip (pyStrip l) = pyStrip l := by
  conv_lhs => rw [pyStrip]
  rw [pyStrip_no_leading l]
  conv_lhs => rw [pyStrip]
  rw [dropEndWhile_idem]
  rfl

/-! Helper lemmas: claim C1. -/

theorem is_formula_like_len {s : String} (h : is_formula_like_text s = true) :
    25 ≤ (pyStrip s.data).length := by
  unfold is_formula_like_text at h
  by_cases hl : (pyStrip s.data).length < 25
  · simp [hl] at h
  · omega

/-- C1: `should_keep_cropped_region` follows the three-tier threshold
scheme of the spec: stripped extracted text of length < 10 → accept iff
the visual score is ≥ 35; text present but not formula-like → accept iff
the score is ≥ 40; formula-like text → accept iff the score is ≥ 62, and
in particular a formula-like region whose score is below 62 is never
accepted. -/
theorem C1_three_tier_thresholds (oc : Oracles) (r : Rect) :
    ((pyStrip (oc.regionText r).data).length < 10 →
      (should_keep_cropped_region oc r = true ↔ 35 ≤ oc.probeScore r)) ∧
    (10 ≤ (pyStrip (oc.regionText r).data).length →
      is_formula_like_text (String.mk (pyStrip (oc.regionText r).data)) = false →
      (should_keep_cropped_region oc r = true ↔ 40 ≤ oc.probeScore r)) ∧
    (is_formula_like_text (String.mk (pyStrip (oc.regionText r).data)) = true →
      (should_keep_cropped_region oc r = true ↔ 62 ≤ oc.probeScore r)) ∧
    (is_formula_like_text (String.mk (pyStrip (oc.regionText r).data)) = true →
      oc.probeScore r < 62 → should_keep_cropped_region oc r = false) := by
  have hlen25 : is_formula_like_text (String.mk (pyStrip (oc.regionText r).data)) = true →
      25 ≤ (pyStrip (oc.regionText r).data).length := by
    intro hf
    have h := is_formula_like_len hf
    have hdata : (String.mk (pyStrip (oc.regionText r).data)).data
        = pyStrip (oc.regionText r).data := rfl
    rw [hdata, pyStrip_idem] at h
    exact h
  unfold should_keep_cropped_region should_keep_core
  refine ⟨?_, ?_, ?_, ?_⟩
  · intro hlen
    simp [hlen, decide_eq_true_iff]
  · intro hlen hnf
    have hlt : ¬ (pyStrip (oc.regionText r).data).length < 10 := by omega
    simp [hlt, hnf, decide_eq_true_iff]
  · intro hf
    have hlt : ¬ (pyStrip (oc.regionText r).data).length < 10 := by
      have := hlen25 hf
      omega
    simp [hlt, hf, decide_eq_true_iff]
  · intro hf hv
    have hlt : ¬ (pyStrip (oc.regionText r).data).length < 10 := by
      have := hlen25 hf
      omega
    have hnle : ¬ (62 ≤ oc.probeScore r) := not_le.mpr hv
    simp [hlt, hf, hnle]

/-- Witness for C1 at a concrete region: blank extracted text, visual
score 100 → the region is kept under the 35 threshold. -/
theorem C1_witness : should_keep_cropped_region ocPicture ⟨0, 0, 10, 10⟩ = true :=
  ((C1_three_tier_thresholds ocPicture ⟨0, 0, 10, 10⟩).1 (by decide)).mpr (by decide)

/-! Helper lemmas: claim C5. -/

theorem capLits_ne_nil : ∀ lit ∈ capLits, lit ≠ [] := by decide

theorem digit_not_space {d : Char} (h : pyIsDigit d = true) : pyIsSpace d = false := by
  by_contra hs
  rw [Bool.not_eq_false] at hs
  unfold pyIsSpace at hs
  simp only [Bool.or_eq_true, decide_eq_true_iff] at hs
  rcases hs with ((((h1 | h1) | h1) | h1) | h1) | h1 <;> subst h1 <;> exact absurd h (by decide)

theorem litMatch_some_iff (lit : List Char) :
    ∀ l r : List Char, litMatch lit l = some r ↔ l = lit ++ r := by
  induction lit with
  | nil =>
    intro l r
    simp [litMatch, eq_comm]
  | cons a ls ih =>
    intro l r
    cases l with
    | nil => simp [litMatch]
    | cons b rest =>
      by_cases hab : a = b
      · subst hab
        simp [litMatch, ih]
      · simp [litMatch, hab]
        intro hb
        exact fun h => hab hb.symm

theorem dropWhile_space_run (w : List Char) (d : Char) (rest : List Char)
    (hw : ∀ c ∈ w, pyIsSpace c = true) (hd : pyIsSpace d = false) :
    (w ++ d :: rest).dropWhile pyIsSpace = d :: rest := by
  induction w with
  | nil => simp [List.dropWhile_cons, hd]
  | cons a t ih =>
    have ha : pyIsSpace a = true := hw a (by simp)
    simp only [List.cons_append, List.dropWhile_cons, ha, if_true]
    exact ih (fun c hc => hw c (by simp [hc]))

/-- C5 (amended): `is_caption_node` holds exactly when the stripped text
starts with one of the EXACT-CASE literals "Fig." / "FIG." / "Figure" /
"FIGURE" / "Tab." / "TAB." / "Table" / "TABLE" / 图 / 表, followed by
optional whitespace and a digit (the optional trailing colon/period can
never affect the match).  The matching is not case-insensitive. -/
theorem C5_caption_characterization (s : String) :
    is_caption_node s = true ↔
      ∃ lit ∈ capLits, ∃ w d rest,
        pyStrip s.data = lit ++ (w ++ d :: rest) ∧
        (∀ c ∈ w, pyIsSpace c = true) ∧ pyIsDigit d = true := by
  have hdef : is_caption_node s
      = if (pyStrip s.data).isEmpty then false else capMatch (pyStrip s.data) := rfl
  rw [hdef]
  cases hemp : (pyStrip s.data).isEmpty with
  | true =>
    have ht : pyStrip s.data = [] := List.isEmpty_iff.mp hemp
    rw [if_pos rfl]
    constructor
    · intro h
      exact absurd h (by simp)
    · rintro ⟨lit, hlit, w, d, rest, heq, -, -⟩
      rw [ht] at heq
      exact absurd heq.symm (by simp)
  | false =>
    rw [if_neg (by simp [hemp])]
    unfold capMatch
    rw [List.any_eq_true]
    rw [pyStrip_no_leading]
    constructor
    · rintro ⟨lit, hlit, hcase⟩
      rcases hM : litMatch lit (pyStrip s.data) with _ | rest0
      · rw [hM] at hcase
        exact absurd (show (false : Bool) = true from hcase) (by simp)
      · rw [hM] at hcase
        have hA : capAfterLit rest0 = true := hcase
        unfold capAfterLit at hA
        rcases hD : rest0.dropWhile pyIsSpace with _ | ⟨d, rest1⟩
        · rw [hD] at hA
          exact absurd (show (false : Bool) = true from hA) (by simp)
        · rw [hD] at hA
          have hd : pyIsDigit d = true := hA
          refine ⟨lit, hlit, rest0.takeWhile pyIsSpace, d, rest1, ?_, ?_, hd⟩
          · rw [(litMatch_some_iff lit _ _).mp hM]
            congr 1
            rw [← hD]
            exact (List.takeWhile_append_dropWhile pyIsSpace rest0).symm
          · intro c hc
            exact List.mem_takeWhile_imp hc
    · rintro ⟨lit, hlit, w, d, rest, heq, hw, hd⟩
      refine ⟨lit, hlit, ?_⟩
      have hM : litMatch lit (pyStrip s.data) = some (w ++ d :: rest) :=
        (litMatch_some_iff lit _ _).mpr heq
      rw [hM]
      show capAfterLit (w ++ d :: rest) = true
      unfold capAfterLit
      rw [dropWhile_space_run w d rest hw (digit_not_space hd)]
      exact hd

/-- Counterexample for C5 as frozen: "fig. 1" matches the spec's
case-insensitive description but `is_caption_node` rejects it (the
source's regular expression lists only the exact casings). -/
theorem C5_counterexample :
    is_caption_specCI "fig. 1" = true ∧ is_caption_node "fig. 1" = false := by
  decide

/-! Helper lemmas: sorting. -/

theorem mem_insertByKey {α : Type} (key : α → ℚ) (a x : α) (l : List α) :
    x ∈ insertByKey key a l ↔ x = a ∨ x ∈ l := by
  induction l with
  | nil => simp [insertByKey]
  | cons b t ih =>
    by_cases h : key a ≤ key b
    · simp [insertByKey, h]
    · simp [insertByKey, h, ih]
      tauto

theorem mem_sortByKey {α : Type} (key : α → ℚ) (x : α) (l : List α) :
    x ∈ sortByKey key l ↔ x ∈ l := by
  induction l with
  | nil => simp [sortByKey]
  | cons a t ih => simp [sortByKey, mem_insertByKey, ih]

theorem pairwise_insertByKey {α : Type} (key : α → ℚ) (a : α) (l : List α)
    (h : List.Pairwise (fun x y => key x ≤ key y) l) :
    List.Pairwise (fun x y => key x ≤ key y) (insertByKey key a l) := by
  induction l with
  | nil => simp [insertByKey]
  | cons b t ih =>
    rcases List.pairwise_cons.mp h with ⟨hb, ht⟩
    by_cases hab : key a ≤ key b
    · unfold insertByKey
      rw [if_pos hab]
      refine List.pairwise_cons.mpr ⟨?_, h⟩
      intro x hx
      rcases List.mem_cons.mp hx with rfl | hx
      · exact hab
      · exact hab.trans (hb x hx)
    · unfold insertByKey
      rw [if_neg hab]
      refine List.pairwise_cons.mpr ⟨?_, ih ht⟩
      intro x hx
      rcases (mem_insertByKey key a x t).mp hx with rfl | hx
      · exact le_of_not_le hab
      · exact hb x hx

theorem sorted_sortByKey {α : Type} (key : α → ℚ) (l : List α) :
    List.Pairwise (fun x y => key x ≤ key y) (sortByKey key l) := by
  induction l with
  | nil => simp [sortByKey]
  | cons a t ih => exact pairwise_insertByKey key a _ ih

theorem mem_dropWhile_y0 (c : ℚ) :
    ∀ l : List Rect, List.Pairwise (fun x y : Rect => x.y0 ≤ y.y0) l →
    ∀ x ∈ l.dropWhile (fun i => decide (i.y0 ≤ c)), c < x.y0 := by
  intro l
  induction l with
  | nil => intro _ x hx; simp at hx
  | cons a t ih =>
    intro hp x hx
    rcases List.pairwise_cons.mp hp with ⟨ha, ht⟩
    by_cases h : a.y0 ≤ c
    · rw [List.dropWhile_cons] at hx
      simp [h] at hx
      exact ih ht x hx
    · rw [List.dropWhile_cons] at hx
      simp [h] at hx
      rcases hx with rfl | hx
      · exact lt_of_not_le h
      · exact lt_of_lt_of_le (lt_of_not_le h) (ha x hx)

theorem takeWhile_nil_y0 (c : ℚ) (l : List Rect)
    (hs : List.Pairwise (fun x y : Rect => x.y0 ≤ y.y0) l)
    (h : l.takeWhile (fun i => decide (i.y0 ≤ c)) = []) : ∀ i ∈ l, c < i.y0 := by
  cases l with
  | nil => simp
  | cons a t =>
    rcases List.pairwise_cons.mp hs with ⟨ha, -⟩
    rw [List.takeWhile_cons] at h
    by_cases hp : a.y0 ≤ c
    · simp [hp] at h
    · intro i hi
      rcases List.mem_cons.mp hi with rfl | hi
      · exact lt_of_not_le hp
      · exact lt_of_lt_of_le (lt_of_not_le hp) (ha i hi)

theorem mem_takeWhile_y0 {c : ℚ} {l : List Rect} {x : Rect}
    (hx : x ∈ l.takeWhile (fun i => decide (i.y0 ≤ c))) : x.y0 ≤ c :=
  of_decide_eq_true (List.mem_takeWhile_imp (p := fun (i : Rect) => decide (i.y0 ≤ c)) hx)

/-! Helper lemmas: element traces and assembly. -/

theorem traceY0_append (l₁ l₂ : List PElem) :
    traceY0 (l₁ ++ l₂) = traceY0 l₁ ++ traceY0 l₂ := by
  induction l₁ with
  | nil => simp [traceY0]
  | cons e t ih => simp [traceY0, ih]

theorem traceY0_cons (e : PElem) (l : List PElem) :
    traceY0 (e :: l) = elemY0s e ++ traceY0 l := rfl

theorem traceY0_map_image (l : List Rect) :
    traceY0 (l.map PElem.image) = l.map Rect.y0 := by
  induction l with
  | nil => simp [traceY0]
  | cons r t ih => simp [traceY0, elemY0s, ih, traceY0_cons]

theorem mem_traceY0 {y : ℚ} {els : List PElem} :
    y ∈ traceY0 els ↔ ∃ x ∈ els, y ∈ elemY0s x := by
  induction els with
  | nil => simp [traceY0]
  | cons e l ih => simp [traceY0_cons, ih]

theorem mem_flushB {buf : List (Rect × String)} {x : PElem} (h : x ∈ flushB buf) :
    x = PElem.text buf := by
  unfold flushB at h
  split at h <;> simp_all

theorem flushB_trace (buf : List (Rect × String)) :
    traceY0 (flushB buf) = [] ∨ traceY0 (flushB buf) = buf.map (fun b => b.1.y0) := by
  unfold flushB
  split
  · left; simp [traceY0]
  · right; simp [traceY0, traceY0_cons, elemY0s]

theorem assembleGo_nil (imgs : List Rect) (buf : List (Rect × String)) :
    assembleGo imgs buf [] = flushB buf ++ imgs.map PElem.image := rfl

theorem assembleGo_cons (imgs : List Rect) (buf : List (Rect × String)) (e : Ev) (rest : List Ev) :
    assembleGo imgs buf (e :: rest) =
      if e.cap then
        flushB buf ++ (imgs.takeWhile (fun i => decide (i.y0 ≤ e.r.y0 + 2))).map PElem.image
          ++ (PElem.caption e.r e.t ::
              assembleGo (imgs.dropWhile (fun i => decide (i.y0 ≤ e.r.y0 + 2))) [] rest)
      else if (imgs.takeWhile (fun i => decide (i.y0 ≤ e.r.y0 + 2))).isEmpty then
        assembleGo imgs (buf ++ [(e.r, e.t)]) rest
      else
        flushB buf ++ (imgs.takeWhile (fun i => decide (i.y0 ≤ e.r.y0 + 2))).map PElem.image
          ++ assembleGo (imgs.dropWhile (fun i => decide (i.y0 ≤ e.r.y0 + 2))) [(e.r, e.t)] rest := by
  rfl

theorem assembleGo_image_src :
    ∀ (evs : List Ev) (imgs : List Rect) (buf : List (Rect × String)) (r : Rect),
      PElem.image r ∈ assembleGo imgs buf evs → r ∈ imgs := by
  intro evs
  induction evs with
  | nil =>
    intro imgs buf r h
    rw [assembleGo_nil] at h
    rcases List.mem_append.mp h with h | h
    · exact absurd (mem_flushB h) (by simp)
    · rcases List.mem_map.mp h with ⟨r', hr', he⟩
      cases he
      exact hr'
  | cons e rest ih =>
    intro imgs buf r h
    rw [assembleGo_cons] at h
    by_cases hcap : e.cap
    · rw [if_pos hcap] at h
      rcases List.mem_append.mp h with h | h
      · rcases List.mem_append.mp h with h | h
        · exact absurd (mem_flushB h) (by simp)
        · rcases List.mem_map.mp h with ⟨r', hr', he⟩
          cases he
          exact (List.takeWhile_sublist _).subset hr'
      · rcases List.mem_cons.mp h with h | h
        · exact absurd h (by simp)
        · exact (List.dropWhile_sublist _).subset (ih _ _ r h)
    · rw [if_neg hcap] at h
      by_cases hfe : (imgs.takeWhile (fun i => decide (i.y0 ≤ e.r.y0 + 2))).isEmpty
      · rw [if_pos hfe] at h
        exact ih _ _ r h
      · rw [if_neg hfe] at h
        rcases List.mem_append.mp h with h | h
        · rcases List.mem_append.mp h with h | h
          · exact absurd (mem_flushB h) (by simp)
          · rcases List.mem_map.mp h with ⟨r', hr', he⟩
            cases he
            exact (List.takeWhile_sublist _).subset hr'
        · exact (List.dropWhile_sublist _).subset (ih _ _ r h)

theorem assembleGo_cap_src :
    ∀ (evs : List Ev) (imgs : List Rect) (buf : List (Rect × String)) (r : Rect) (t : String),
      PElem.caption r t ∈ assembleGo imgs buf evs → (⟨true, r, t⟩ : Ev) ∈ evs := by
  intro evs
  induction evs with
  | nil =>
    intro imgs buf r t h
    rw [assembleGo_nil] at h
    rcases List.mem_append.mp h with h | h
    · exact absurd (mem_flushB h) (by simp)
    · rcases List.mem_map.mp h with ⟨r', -, he⟩
      cases he
  | cons e rest ih =>
    intro imgs buf r t h
    rw [assembleGo_cons] at h
    by_cases hcap : e.cap
    · rw [if_pos hcap] at h
      rcases List.mem_append.mp h with h | h
      · rcases List.mem_append.mp h with h | h
        · exact absurd (mem_flushB h) (by simp)
        · rcases List.mem_map.mp h with ⟨r', -, he⟩
          cases he
      · rcases List.mem_cons.mp h with h | h
        · rcases h
          have he : e = ⟨true, e.r, e.t⟩ := by
            cases e
            simp_all
          rw [← he]
          exact List.mem_cons_self e rest
        · exact List.mem_cons_of_mem e (ih _ _ r t h)
    · rw [if_neg hcap] at h
      by_cases hfe : (imgs.takeWhile (fun i => decide (i.y0 ≤ e.r.y0 + 2))).isEmpty
      · rw [if_pos hfe] at h
        exact List.mem_cons_of_mem e (ih _ _ r t h)
      · rw [if_neg hfe] at h
        rcases List.mem_append.mp h with h | h
        · rcases List.mem_append.mp h with h | h
          · exact absurd (mem_flushB h) (by simp)
          · rcases List.mem_map.mp h with ⟨r', -, he⟩
            cases he
        · exact List.mem_cons_of_mem e (ih _ _ r t h)

theorem assembleGo_text_src :
    ∀ (evs : List Ev) (imgs : List Rect) (buf : List (Rect × String)) (bs : List (Rect × String)),
      PElem.text bs ∈ assembleGo imgs buf evs →
      ∀ b ∈ bs, b ∈ buf ∨ ∃ e ∈ evs, e.cap = false ∧ b = (e.r, e.t) := by
  intro evs
  induction evs with
  | nil =>
    intro imgs buf bs h b hb
    rw [assembleGo_nil] at h
    rcases List.mem_append.mp h with h | h
    · have := mem_flushB h
      cases this
      exact Or.inl hb
    · rcases List.mem_map.mp h with ⟨r', -, he⟩
      cases he
  | cons e rest ih =>
    intro imgs buf bs h b hb
    rw [assembleGo_cons] at h
    by_cases hcap : e.cap
    · rw [if_pos hcap] at h
      rcases List.mem_append.mp h with h | h
      · rcases List.mem_append.mp h with h | h
        · have := mem_flushB h
          cases this
          exact Or.inl hb
        · rcases List.mem_map.mp h with ⟨r', -, he⟩
          cases he
      · rcases List.mem_cons.mp h with h | h
        · exact absurd h (by simp)
        · rcases ih _ _ bs h b hb with hbuf | ⟨e', he', hc', hbe'⟩
          · simp at hbuf
          · exact Or.inr ⟨e', List.mem_cons_of_mem e he', hc', hbe'⟩
    · rw [if_neg hcap] at h
      have hcf : e.cap = false := by
        cases hc : e.cap
        · rfl
        · exact absurd hc hcap
      by_cases hfe : (imgs.takeWhile (fun i => decide (i.y0 ≤ e.r.y0 + 2))).isEmpty
      · rw [if_pos hfe] at h
        rcases ih _ _ bs h b hb with hbuf | ⟨e', he', hc', hbe'⟩
        · rcases List.mem_append.mp hbuf with hbuf | hbuf
          · exact Or.inl hbuf
          · simp at hbuf
            exact Or.inr ⟨e, List.mem_cons_self e rest, hcf, by rw [hbuf]⟩
        · exact Or.inr ⟨e', List.mem_cons_of_mem e he', hc', hbe'⟩
      · rw [if_neg hfe] at h
        rcases List.mem_append.mp h with h | h
        · rcases List.mem_append.mp h with h | h
          · have := mem_flushB h
            cases this
            exact Or.inl hb
          · rcases List.mem_map.mp h with ⟨r', -, he⟩
            cases he
        · rcases ih _ _ bs h b hb with hbuf | ⟨e', he', hc', hbe'⟩
          · simp at hbuf
            exact Or.inr ⟨e, List.mem_cons_self e rest, hcf, by rw [hbuf]⟩
          · exact Or.inr ⟨e', List.mem_cons_of_mem e he', hc', hbe'⟩

theorem assembleGo_trace_lb (c : ℚ) (evs : List Ev) (imgs : List Rect)
    (buf : List (Rect × String))
    (hi : ∀ i ∈ imgs, c ≤ i.y0) (hb : ∀ b ∈ buf, c ≤ b.1.y0)
    (he : ∀ e ∈ evs, c ≤ e.r.y0) :
    ∀ y ∈ traceY0 (assembleGo imgs buf evs), c ≤ y := by
  intro y hy
  rcases mem_traceY0.mp hy with ⟨x, hx, hyx⟩
  cases x with
  | text bs =>
    simp only [elemY0s] at hyx
    rcases List.mem_map.mp hyx with ⟨b, hbm, rfl⟩
    rcases assembleGo_text_src evs imgs buf bs hx b hbm with hbuf | ⟨e', he', -, hbe'⟩
    · exact hb b hbuf
    · rw [hbe']
      exact he e' he'
  | image r =>
    simp only [elemY0s, List.mem_singleton] at hyx
    rw [hyx]
    exact hi r (assembleGo_image_src evs imgs buf r hx)
  | caption r t =>
    simp only [elemY0s, List.mem_singleton] at hyx
    rw [hyx]
    exact he _ (assembleGo_cap_src evs imgs buf r t hx)

theorem assembleGo_tol :
    ∀ (evs : List Ev) (imgs : List Rect) (buf : List (Rect × String)),
      List.Pairwise (fun a b : Ev => a.r.y0 ≤ b.r.y0) evs →
      List.Pairwise (fun a b : Rect => a.y0 ≤ b.y0) imgs →
      List.Pairwise (fun a b : Rect × String => a.1.y0 ≤ b.1.y0) buf →
      (∀ b ∈ buf, ∀ e ∈ evs, b.1.y0 ≤ e.r.y0) →
      (∀ b ∈ buf, ∀ i ∈ imgs, b.1.y0 + 2 < i.y0) →
      List.Pairwise (fun a b : ℚ => a - 2 ≤ b) (traceY0 (assembleGo imgs buf evs)) := by
  intro evs
  induction evs with
  | nil =>
    intro imgs buf _ himgs hbuf _ hbi
    rw [assembleGo_nil, traceY0_append, traceY0_map_image]
    rw [List.pairwise_append]
    refine ⟨?_, ?_, ?_⟩
    · rcases flushB_trace buf with hf | hf <;> rw [hf]
      · exact List.Pairwise.nil
      · rw [List.pairwise_map]
        exact hbuf.imp (fun h => by linarith)
    · rw [List.pairwise_map]
      exact himgs.imp (fun h => by linarith)
    · intro a ha y hyy
      rcases flushB_trace buf with hf | hf
      · rw [hf] at ha
        simp at ha
      · rw [hf] at ha
        rcases List.mem_map.mp ha with ⟨b, hbm, rfl⟩
        rcases List.mem_map.mp hyy with ⟨i, him, rfl⟩
        have := hbi b hbm i him
        linarith
  | cons e rest ih =>
    intro imgs buf hevs himgs hbuf hbe hbi
    rcases List.pairwise_cons.mp hevs with ⟨heh, het⟩
    have hflush : ∀ a ∈ traceY0 (flushB buf), ∃ b ∈ buf, a = b.1.y0 := by
      intro a ha
      rcases flushB_trace buf with hf | hf
      · rw [hf] at ha
        simp at ha
      · rw [hf] at ha
        rcases List.mem_map.mp ha with ⟨b, hbm, rfl⟩
        exact ⟨b, hbm, rfl⟩
    have hflush_pw : List.Pairwise (fun a b : ℚ => a - 2 ≤ b) (traceY0 (flushB buf)) := by
      rcases flushB_trace buf with hf | hf <;> rw [hf]
      · exact List.Pairwise.nil
      · rw [List.pairwise_map]
        exact hbuf.imp (fun h => by linarith)
    rw [assembleGo_cons]
    by_cases hcap : e.cap
    · rw [if_pos hcap]
      have hrem : ∀ i ∈ imgs.dropWhile (fun i => decide (i.y0 ≤ e.r.y0 + 2)),
          e.r.y0 + 2 < i.y0 := mem_dropWhile_y0 _ imgs himgs
      have hTr : ∀ y ∈ traceY0 (assembleGo
          (imgs.dropWhile (fun i => decide (i.y0 ≤ e.r.y0 + 2))) [] rest), e.r.y0 ≤ y := by
        refine assembleGo_trace_lb _ _ _ _ ?_ (by simp) (fun e' he' => heh e' he')
        intro i hi
        have := hrem i hi
        linarith
      rw [traceY0_append, traceY0_append, traceY0_cons, traceY0_map_image]
      simp only [elemY0s]
      rw [List.pairwise_append]
      refine ⟨?_, ?_, ?_⟩
      · rw [List.pairwise_append]
        refine ⟨hflush_pw, ?_, ?_⟩
        · rw [List.pairwise_map]
          exact (himgs.sublist (List.takeWhile_sublist _)).imp (fun h => by linarith)
        · intro a ha y hy
          rcases hflush a ha with ⟨b, hbm, rfl⟩
          rcases List.mem_map.mp hy with ⟨i, him, rfl⟩
          have := hbi b hbm i ((List.takeWhile_sublist _).subset him)
          linarith
      · rw [List.pairwise_append]
        refine ⟨List.pairwise_singleton _ _, ih _ [] het
          (himgs.sublist (List.dropWhile_sublist _)) List.Pairwise.nil (by simp) (by simp), ?_⟩
        intro a ha y hy
        simp only [List.mem_singleton] at ha
        rw [ha]
        have := hTr y hy
        linarith
      · intro a ha y hy
        rcases List.mem_append.mp ha with ha | ha
        · rcases hflush a ha with ⟨b, hbm, rfl⟩
          rcases List.mem_append.mp hy with hy | hy
          · simp only [List.mem_singleton] at hy
            rw [hy]
            have := hbe b hbm e (List.mem_cons_self e rest)
            linarith
          · have h1 := hbe b hbm e (List.mem_cons_self e rest)
            have h2 := hTr y hy
            linarith
        · rcases List.mem_map.mp ha with ⟨i, him, rfl⟩
          have h1 : i.y0 ≤ e.r.y0 + 2 := mem_takeWhile_y0 him
          rcases List.mem_append.mp hy with hy | hy
          · simp only [List.mem_singleton] at hy
            rw [hy]
            linarith
          · have h2 := hTr y hy
            linarith
    · rw [if_neg hcap]
      by_cases hfe : (imgs.takeWhile (fun i => decide (i.y0 ≤ e.r.y0 + 2))).isEmpty
      · rw [if_pos hfe]
        have himgs_far : ∀ i ∈ imgs, e.r.y0 + 2 < i.y0 :=
          takeWhile_nil_y0 _ imgs himgs (List.isEmpty_iff.mp hfe)
        refine ih imgs (buf ++ [(e.r, e.t)]) het himgs ?_ ?_ ?_
        · rw [List.pairwise_append]
          refine ⟨hbuf, List.pairwise_singleton _ _, ?_⟩
          intro b hbm x hx
          simp only [List.mem_singleton] at hx
          rw [hx]
          exact hbe b hbm e (List.mem_cons_self e rest)
        · intro b hbm e' he'
          rcases List.mem_append.mp hbm with hbm | hbm
          · exact hbe b hbm e' (List.mem_cons_of_mem e he')
          · simp only [List.mem_singleton] at hbm
            rw [hbm]
            exact heh e' he'
        · intro b hbm i hi
          rcases List.mem_append.mp hbm with hbm | hbm
          · exact hbi b hbm i hi
          · simp only [List.mem_singleton] at hbm
            rw [hbm]
            exact himgs_far i hi
      · rw [if_neg hfe]
        have hrem : ∀ i ∈ imgs.dropWhile (fun i => decide (i.y0 ≤ e.r.y0 + 2)),
            e.r.y0 + 2 < i.y0 := mem_dropWhile_y0 _ imgs himgs
        have hTr : ∀ y ∈ traceY0 (assembleGo
            (imgs.dropWhile (fun i => decide (i.y0 ≤ e.r.y0 + 2))) [(e.r, e.t)] rest),
            e.r.y0 ≤ y := by
          refine assembleGo_trace_lb _ _ _ _ ?_ ?_ (fun e' he' => heh e' he')
          · intro i hi
            have := hrem i hi
            linarith
          · intro b hbm
            simp only [List.mem_singleton] at hbm
            rw [hbm]
        rw [traceY0_append, traceY0_append, traceY0_map_image]
        rw [List.pairwise_append]
        refine ⟨?_, ?_, ?_⟩
        · rw [List.pairwise_append]
          refine ⟨hflush_pw, ?_, ?_⟩
          · rw [List.pairwise_map]
            exact (himgs.sublist (List.takeWhile_sublist _)).imp (fun h => by linarith)
          · intro a ha y hy
            rcases hflush a ha with ⟨b, hbm, rfl⟩
            rcases List.mem_map.mp hy with ⟨i, him, rfl⟩
            have := hbi b hbm i ((List.takeWhile_sublist _).subset him)
            linarith
        · refine ih _ [(e.r, e.t)] het (himgs.sublist (List.dropWhile_sublist _))
            (List.pairwise_singleton _ _) ?_ ?_
          · intro b hbm e' he'
            simp only [List.mem_singleton] at hbm
            rw [hbm]
            exact heh e' he'
          · intro b hbm i hi
            simp only [List.mem_singleton] at hbm
            rw [hbm]
            exact hrem i hi
        · intro a ha y hy
          have hylb := hTr y hy
          rcases List.mem_append.mp ha with ha | ha
          · rcases hflush a ha with ⟨b, hbm, rfl⟩
            have := hbe b hbm e (List.mem_cons_self e rest)
            linarith
          · rcases List.mem_map.mp ha with ⟨i, him, rfl⟩
            have := mem_takeWhile_y0 him
            linarith

/-- C2 (amended): the flattened sequence of source-block/region
y0-coordinates along the element stream of `parse_page` is non-decreasing
up to a slack of 2 units: every later coordinate is at least every
earlier one minus 2 (the slack comes from the `y0 <= r.y0 + 2` image
flush tolerance of the assembly loop).  Strict non-decrease fails, see
the counterexample. -/
theorem C2_order_tolerance (oc : Oracles) (page : Page) (mgh tm bm sm : ℚ) :
    List.Pairwise (fun a b : ℚ => a - 2 ≤ b) (traceY0 (parse_page oc page mgh tm bm sm)) := by
  unfold parse_page
  exact assembleGo_tol _ _ _ (sorted_sortByKey _ _) (sorted_sortByKey _ _)
    List.Pairwise.nil (by simp) (by simp)

/-- Counterexample for C2 as frozen: on a page with a thin text block at
y0 = 100 (bottom edge 101), a large accepted gap band starting at
y0 = 101, and a second block at y0 = 400, the emitted y0 sequence is
[101, 100, 400] — the image is flushed before the text block whose y0 is
1 unit smaller (tolerance +2), so the y0 stream is NOT non-decreasing. -/
theorem C2_counterexample :
    traceY0 (parse_page ocPicture pageTol 120 60 60 40) = [101, 100, 400] ∧
    ¬ List.Pairwise (fun a b : ℚ => a ≤ b) (traceY0 (parse_page ocPicture pageTol 120 60 60 40)) := by
  decide

/-! Helper lemmas: claims C6, C8, C9. -/

theorem mem_keptBlocks {page : Page} {b : Rect × String} (hb : b ∈ keptBlocks page) :
    is_header_or_footer b.1 page.height = false := by
  unfold keptBlocks at hb
  rcases List.mem_filter.mp hb with ⟨-, hp⟩
  simp only [Bool.and_eq_true] at hp
  rcases hp with ⟨h1, -⟩
  rwa [Bool.not_eq_true'] at h1

theorem mem_pageEvents {page : Page} {e : Ev} (he : e ∈ pageEvents page) :
    (e.r, e.t) ∈ keptBlocks page := by
  unfold pageEvents at he
  rw [mem_sortByKey] at he
  rcases List.mem_append.mp he with h | h
  · rcases List.mem_map.mp h with ⟨b, hb, rfl⟩
    rw [mem_sortByKey] at hb
    simpa using (List.mem_filter.mp hb).1
  · rcases List.mem_map.mp h with ⟨b, hb, rfl⟩
    rw [mem_sortByKey] at hb
    simpa using (List.mem_filter.mp hb).1

/-- C6 (amended): `is_header_or_footer` holds exactly when the rectangle
lies ENTIRELY inside the top 6% band (its bottom edge `y1` is above the
6% line) or entirely inside the bottom 6% band (its top edge `y0` is
below the 94% line) — not merely when an edge touches a band; and every
text block for which the predicate holds is excluded from the assembled
element stream of its page (no text or caption element of `parse_page`
originates from it). -/
theorem C6_header_footer_exclusion :
    (∀ (r : Rect) (h : ℚ), is_header_or_footer r h = true ↔
      (r.y1 < h * (6/100) ∨ h * (94/100) < r.y0)) ∧
    (∀ (oc : Oracles) (page : Page) (mgh tm bm sm : ℚ),
      ∀ x ∈ parse_page oc page mgh tm bm sm, ∀ b, elemSrc x b →
        is_header_or_footer b.1 page.height = false) := by
  constructor
  · intro r h
    unfold is_header_or_footer
    simp [Bool.or_eq_true, decide_eq_true_iff]
  · intro oc page mgh tm bm sm x hx b hsrc
    unfold parse_page at hx
    cases x with
    | text bs =>
      rcases assembleGo_text_src _ _ _ bs hx b hsrc with hbuf | ⟨e', he', -, hbe'⟩
      · simp at hbuf
      · rw [hbe']
        exact mem_keptBlocks (mem_pageEvents he')
    | image r => exact absurd hsrc (by simp [elemSrc])
    | caption r t =>
      have hsrc' : b = (r, t) := hsrc
      have he' := assembleGo_cap_src _ _ _ r t hx
      rw [hsrc']
      exact mem_keptBlocks (mem_pageEvents he')

/-- Witness for C6 at a concrete page: the single mid-page block of
`pageSimple` survives into the element stream, so the theorem yields that
it is not header/footer. -/
theorem C6_witness : is_header_or_footer ⟨100, 300, 300, 320⟩ 1000 = false :=
  C6_header_footer_exclusion.2 ocBlank pageSimple 120 60 60 40
    (PElem.text [(⟨100, 300, 300, 320⟩, "hi there")]) (by decide)
    (⟨100, 300, 300, 320⟩, "hi there") (by simp [elemSrc])

/-- Counterexample for C6 as frozen: the block (y0 = 10, y1 = 500) on a
page of height 1000 has its top edge inside the top 6% band, so the
spec's edge phrasing calls it a header, but `is_header_or_footer` (which
requires the whole rectangle inside a band) rejects it. -/
theorem C6_counterexample :
    is_header_or_footer_specEdges ⟨0, 10, 100, 500⟩ 1000 = true ∧
    is_header_or_footer ⟨0, 10, 100, 500⟩ 1000 = false := by
  decide

theorem gapWalk_nil (x0 x1 sb mgh ly : ℚ) :
    gapWalk x0 x1 sb mgh ly [] =
      if mgh ≤ sb - ly then [⟨x0, ly, x1, sb⟩] else [] := rfl

theorem gapWalk_cons (x0 x1 sb mgh ly : ℚ) (m : Rect) (rest : List Rect) :
    gapWalk x0 x1 sb mgh ly (m :: rest) =
      (if mgh ≤ min m.y0 sb - ly then [(⟨x0, ly, x1, min m.y0 sb⟩ : Rect)] else [])
        ++ gapWalk x0 x1 sb mgh (max ly m.y1) rest := rfl

theorem build_gap_eq (page : Page) (mgh tm bm sm : ℚ) :
    build_gap_rects_from_text_blocks page mgh tm bm sm =
      if (List.map Prod.fst (keptBlocks page)).isEmpty then []
      else gapWalk sm (page.width - sm)
        (min (page.height - bm) (pyTrunc (page.height * (94/100)))) mgh
        (max tm (pyTrunc (page.height * (6/100))))
        (mergeRun (sortByKey Rect.y0 (List.map Prod.fst (keptBlocks page)))) := rfl

theorem gapWalk_bounds (x0 x1 sb mgh st : ℚ) :
    ∀ (merged : List Rect) (ly : ℚ), st ≤ ly →
      ∀ r ∈ gapWalk x0 x1 sb mgh ly merged, st ≤ r.y0 ∧ r.y1 ≤ sb := by
  intro merged
  induction merged with
  | nil =>
    intro ly hly r hr
    rw [gapWalk_nil] at hr
    by_cases h : mgh ≤ sb - ly
    · rw [if_pos h] at hr
      rcases List.mem_singleton.mp hr with rfl
      exact ⟨hly, le_refl _⟩
    · rw [if_neg h] at hr
      simp at hr
  | cons m rest ih =>
    intro ly hly r hr
    rw [gapWalk_cons] at hr
    rcases List.mem_append.mp hr with hr | hr
    · by_cases h : mgh ≤ min m.y0 sb - ly
      · rw [if_pos h] at hr
        rcases List.mem_singleton.mp hr with rfl
        exact ⟨hly, min_le_right _ _⟩
      · rw [if_neg h] at hr
        simp at hr
    · exact ih (max ly m.y1) (hly.trans (le_max_left _ _)) r hr

theorem gapWalk_height (x0 x1 sb mgh : ℚ) :
    ∀ (merged : List Rect) (ly : ℚ), ∀ r ∈ gapWalk x0 x1 sb mgh ly merged,
      mgh ≤ r.height := by
  intro merged
  induction merged with
  | nil =>
    intro ly r hr
    rw [gapWalk_nil] at hr
    by_cases h : mgh ≤ sb - ly
    · rw [if_pos h] at hr
      rcases List.mem_singleton.mp hr with rfl
      unfold Rect.height
      exact h.trans (le_abs_self _)
    · rw [if_neg h] at hr
      simp at hr
  | cons m rest ih =>
    intro ly r hr
    rw [gapWalk_cons] at hr
    rcases List.mem_append.mp hr with hr | hr
    · by_cases h : mgh ≤ min m.y0 sb - ly
      · rw [if_pos h] at hr
        rcases List.mem_singleton.mp hr with rfl
        unfold Rect.height
        exact h.trans (le_abs_self _)
      · rw [if_neg h] at hr
        simp at hr
    · exact ih _ r hr

/-- C8 (amended): every rectangle emitted by
`build_gap_rects_from_text_blocks` has its vertical extent inside
[max(top_margin, int(0.06*h)), min(h - bottom_margin, int(0.94*h))] —
with Python's `int(...)` truncation of the band boundaries, which on
pages whose height is not a multiple imposes a cut strictly below the
exact 6% line (see the counterexample against the un-truncated bands of
the claim). -/
theorem C8_gap_safe_bands (page : Page) (mgh tm bm sm : ℚ) :
    ∀ r ∈ build_gap_rects_from_text_blocks page mgh tm bm sm,
      max tm (pyTrunc (page.height * (6/100))) ≤ r.y0 ∧
      r.y1 ≤ min (page.height - bm) (pyTrunc (page.height * (94/100))) := by
  intro r hr
  rw [build_gap_eq] at hr
  split at hr
  · simp at hr
  · exact gapWalk_bounds _ _ _ _ _ _ _ (le_refl _) r hr

/-- Witness for C8 at a concrete page: the gap band of `pageFloor` stays
inside the truncated safe bands. -/
theorem C8_witness :
    max (60 : ℚ) (pyTrunc (pageFloor.height * (6/100))) ≤ (60 : ℚ) ∧
    (300 : ℚ) ≤ min (pageFloor.height - 60) (pyTrunc (pageFloor.height * (94/100))) :=
  C8_gap_safe_bands pageFloor 120 60 60 40 ⟨40, 60, 560, 300⟩ (by decide)

/-- Counterexample for C8 as frozen: on a page of height 1001 the code's
`int(1001*0.06) = 60` lets the gap band start at y = 60, strictly inside
the exact top-6% band (boundary 60.06): the emitted rectangle overlaps
the header band and violates the claim's un-truncated lower bound
max(top_margin, 0.06*h). -/
theorem C8_counterexample :
    ∃ r ∈ build_gap_rects_from_text_blocks pageFloor 120 60 60 40,
      r.y0 < pageFloor.height * (6/100) ∧
      ¬ (max (60 : ℚ) (pageFloor.height * (6/100)) ≤ r.y0) := by
  decide

/-- C9: no gap region below the minimum-gap-height threshold is ever
promoted to an image element: every rectangle emitted by
`build_gap_rects_from_text_blocks` has height at least `min_gap_height`,
and every image element of the stream built by `parse_page` comes from a
rectangle of height at least `min_gap_height` (the additional
`gr.height < min_gap_height` skip in `parse_page` is subsumed). -/
theorem C9_gap_height_floor (oc : Oracles) (page : Page) (mgh tm bm sm : ℚ) :
    (∀ r ∈ build_gap_rects_from_text_blocks page mgh tm bm sm, mgh ≤ r.height) ∧
    (∀ r : Rect, PElem.image r ∈ parse_page oc page mgh tm bm sm → mgh ≤ r.height) := by
  constructor
  · intro r hr
    rw [build_gap_eq] at hr
    split at hr
    · simp at hr
    · exact gapWalk_height _ _ _ _ _ _ r hr
  · intro r hx
    unfold parse_page at hx
    have hr := assembleGo_image_src _ _ _ r hx
    rw [mem_sortByKey] at hr
    unfold croppedRects at hr
    rcases List.mem_filter.mp hr with ⟨-, hp⟩
    simp only [Bool.and_eq_true] at hp
    rcases hp with ⟨⟨h2, -⟩, -⟩
    rw [Bool.not_eq_true'] at h2
    exact le_of_not_lt (of_decide_eq_false h2)

/-- Witness for C9 at a concrete page: the accepted gap band of `pageTol`
has height 299 ≥ 120. -/
theorem C9_witness : (120 : ℚ) ≤ (Rect.height ⟨40, 101, 560, 400⟩) :=
  (C9_gap_height_floor ocPicture pageTol 120 60 60 40).2 ⟨40, 101, 560, 400⟩ (by decide)

/-! Helper lemmas: claim C7 (the translation chunker). -/

theorem sentFold_inv (maxc : ℕ) (P : List Char → Prop) (segs₀ : List (List Char))
    (hP1 : ∀ l : List Char, l.length ≤ maxc → P l)
    (hP2 : ∀ s ∈ segs₀, P (pyStrip s)) :
    ∀ (segs : List (List Char)) (parts : List (List Char)) (sbuf : List Char),
      (∀ s ∈ segs, s ∈ segs₀) →
      (∀ p ∈ parts, P p) →
      (sbuf.length ≤ maxc ∨ ∃ s ∈ segs₀, sbuf = pyStrip s) →
      (∀ p ∈ (segs.foldl (sentStep maxc) (parts, sbuf)).1, P p) ∧
      ((segs.foldl (sentStep maxc) (parts, sbuf)).2.length ≤ maxc ∨
        ∃ s ∈ segs₀, (segs.foldl (sentStep maxc) (parts, sbuf)).2 = pyStrip s) := by
  intro segs
  induction segs with
  | nil => intro parts sbuf _ hp hs; exact ⟨hp, hs⟩
  | cons seg0 rest ih =>
    intro parts sbuf hmem hp hs
    rw [List.foldl_cons]
    by_cases he : (pyStrip seg0).isEmpty
    · have hstep : sentStep maxc (parts, sbuf) seg0 = (parts, sbuf) := by
        simp [sentStep, he]
      rw [hstep]
      exact ih parts sbuf (fun s hsm => hmem s (by simp [hsm])) hp hs
    · by_cases hle : sbuf.length + (pyStrip seg0).length + 1 ≤ maxc
      · have hstep : sentStep maxc (parts, sbuf) seg0
            = (parts, pyStrip (sbuf ++ [' '] ++ pyStrip seg0)) := by
          simp [sentStep, he, hle]
        rw [hstep]
        refine ih _ _ (fun s hsm => hmem s (by simp [hsm])) hp (Or.inl ?_)
        calc (pyStrip (sbuf ++ [' '] ++ pyStrip seg0)).length
            ≤ (sbuf ++ [' '] ++ pyStrip seg0).length := pyStrip_length_le _
          _ = sbuf.length + 1 + (pyStrip seg0).length := by
              simp [List.length_append]
              omega
          _ ≤ maxc := by omega
      · have hstep : sentStep maxc (parts, sbuf) seg0
            = ((if sbuf.isEmpty then parts else parts ++ [sbuf]), pyStrip seg0) := by
          simp [sentStep, he, hle]
        rw [hstep]
        refine ih _ _ (fun s hsm => hmem s (by simp [hsm])) ?_ ?_
        · intro p hpp
          by_cases hbe : sbuf.isEmpty
          · rw [if_pos hbe] at hpp
            exact hp p hpp
          · rw [if_neg hbe] at hpp
            rcases List.mem_append.mp hpp with h | h
            · exact hp p h
            · rcases List.mem_singleton.mp h with rfl
              rcases hs with hs | ⟨s, hsm, rfl⟩
              · exact hP1 _ hs
              · exact hP2 s hsm
        · exact Or.inr ⟨seg0, hmem seg0 (by simp), rfl⟩

theorem paraFold_inv (maxc : ℕ) (paras₀ : List (List Char)) :
    ∀ (paras : List (List Char)) (parts : List (List Char)) (buf : List Char),
      (∀ q ∈ paras, q ∈ paras₀) →
      (∀ p ∈ parts, p.length ≤ maxc ∨
        ∃ q ∈ paras₀, ∃ s ∈ splitSent (pyStrip q), p = pyStrip s) →
      buf.length ≤ maxc →
      (∀ p ∈ (paras.foldl (paraStep maxc) (parts, buf)).1,
        p.length ≤ maxc ∨ ∃ q ∈ paras₀, ∃ s ∈ splitSent (pyStrip q), p = pyStrip s) ∧
      (paras.foldl (paraStep maxc) (parts, buf)).2.length ≤ maxc := by
  intro paras
  induction paras with
  | nil => intro parts buf _ hp hb; exact ⟨hp, hb⟩
  | cons q0 rest ih =>
    intro parts buf hmem hp hb
    rw [List.foldl_cons]
    have hq0 : q0 ∈ paras₀ := hmem q0 (by simp)
    by_cases he : (pyStrip q0).isEmpty
    · have hstep : paraStep maxc (parts, buf) q0 = (parts, buf) := by
        simp [paraStep, he]
      rw [hstep]
      exact ih parts buf (fun q hq => hmem q (by simp [hq])) hp hb
    · by_cases hle : buf.length + (pyStrip q0).length + 2 ≤ maxc
      · have hstep : paraStep maxc (parts, buf) q0
            = (parts, pyStrip (buf ++ ['\n', '\n'] ++ pyStrip q0)) := by
          simp [paraStep, he, hle]
        rw [hstep]
        refine ih _ _ (fun q hq => hmem q (by simp [hq])) hp ?_
        calc (pyStrip (buf ++ ['\n', '\n'] ++ pyStrip q0)).length
            ≤ (buf ++ ['\n', '\n'] ++ pyStrip q0).length := pyStrip_length_le _
          _ = buf.length + 2 + (pyStrip q0).length := by
              simp [List.length_append]
              omega
          _ ≤ maxc := by omega
      · have hparts1 : ∀ p ∈ (if buf.isEmpty then parts else parts ++ [buf]),
            p.length ≤ maxc ∨
              ∃ q ∈ paras₀, ∃ s ∈ splitSent (pyStrip q), p = pyStrip s := by
          intro p hpp
          by_cases hbe : buf.isEmpty
          · rw [if_pos hbe] at hpp
            exact hp p hpp
          · rw [if_neg hbe] at hpp
            rcases List.mem_append.mp hpp with h | h
            · exact hp p h
            · rcases List.mem_singleton.mp h with rfl
              exact Or.inl hb
        by_cases hlong : maxc < (pyStrip q0).length
        · have hstep : paraStep maxc (parts, buf) q0
              = ((if ((splitSent (pyStrip q0)).foldl (sentStep maxc)
                    ((if buf.isEmpty then parts else parts ++ [buf]), [])).2.isEmpty
                  then ((splitSent (pyStrip q0)).foldl (sentStep maxc)
                    ((if buf.isEmpty then parts else parts ++ [buf]), [])).1
                  else ((splitSent (pyStrip q0)).foldl (sentStep maxc)
                    ((if buf.isEmpty then parts else parts ++ [buf]), [])).1
                    ++ [((splitSent (pyStrip q0)).foldl (sentStep maxc)
                      ((if buf.isEmpty then parts else parts ++ [buf]), [])).2]), []) := by
            simp [paraStep, he, hle, hlong]
          rw [hstep]
          have hsent := sentFold_inv maxc
            (fun p => p.length ≤ maxc ∨
              ∃ q ∈ paras₀, ∃ s ∈ splitSent (pyStrip q), p = pyStrip s)
            (splitSent (pyStrip q0))
            (fun l hl => Or.inl hl)
            (fun s hsm => Or.inr ⟨q0, hq0, s, hsm, rfl⟩)
            (splitSent (pyStrip q0))
            (if buf.isEmpty then parts else parts ++ [buf]) []
            (fun s hsm => hsm) hparts1 (Or.inl (by simp))
          refine ih _ _ (fun q hq => hmem q (by simp [hq])) ?_ (by simp)
          intro p hpp
          by_cases hse : ((splitSent (pyStrip q0)).foldl (sentStep maxc)
              ((if buf.isEmpty then parts else parts ++ [buf]), [])).2.isEmpty
          · rw [if_pos hse] at hpp
            exact hsent.1 p hpp
          · rw [if_neg hse] at hpp
            rcases List.mem_append.mp hpp with h | h
            · exact hsent.1 p h
            · rcases List.mem_singleton.mp h with rfl
              rcases hsent.2 with h2 | ⟨s, hsm, heq⟩
              · exact Or.inl h2
              · exact Or.inr ⟨q0, hq0, s, hsm, heq⟩
        · have hstep : paraStep maxc (parts, buf) q0
              = ((if buf.isEmpty then parts else parts ++ [buf]), pyStrip q0) := by
            simp [paraStep, he, hle, hlong]
          rw [hstep]
          exact ih _ _ (fun q hq => hmem q (by simp [hq])) hparts1 (by omega)

/-- C7 (amended): every chunk produced by the text splitter either has at
most 2500 characters or is a single sentence segment of one paragraph
that itself exceeds the limit and admits no further paragraph/sentence
boundary to split at (the source emits such a segment whole).  The
unconditional 2500-character bound of the claim fails, see the
counterexample. -/
theorem C7_chunk_bound (text : String) :
    ∀ part ∈ _split_text_for_translation text 2500,
      part.data.length ≤ 2500 ∨
      ∃ q ∈ splitOnPara (pyStrip text.data), ∃ s ∈ splitSent (pyStrip q),
        part.data = pyStrip s := by
  intro part hpart
  unfold _split_text_for_translation at hpart
  by_cases hsmall : (pyStrip text.data).length ≤ 2500
  · rw [if_pos hsmall] at hpart
    rcases List.mem_singleton.mp hpart with rfl
    exact Or.inl hsmall
  · rw [if_neg hsmall] at hpart
    rcases List.mem_map.mp hpart with ⟨p, hp, rfl⟩
    have h := paraFold_inv 2500 (splitOnPara (pyStrip text.data))
      (splitOnPara (pyStrip text.data)) [] [] (fun q hq => hq) (by simp) (by simp)
    by_cases hbe : ((splitOnPara (pyStrip text.data)).foldl (paraStep 2500) ([], [])).2.isEmpty
    · rw [if_pos hbe] at hp
      exact h.1 p hp
    · rw [if_neg hbe] at hp
      rcases List.mem_append.mp hp with hp | hp
      · exact h.1 p hp
      · rcases List.mem_singleton.mp hp with rfl
        exact Or.inl h.2

/-- Witness for C7: a short text forms a single chunk within the limit. -/
theorem C7_witness :
    ("hello" : String).data.length ≤ 2500 ∨
      ∃ q ∈ splitOnPara (pyStrip ("hello" : String).data),
        ∃ s ∈ splitSent (pyStrip q), ("hello" : String).data = pyStrip s :=
  C7_chunk_bound "hello" "hello" (by decide)

/-- Counterexample for C7 as frozen: a 2600-character single-sentence text
is returned as one chunk of 2600 > 2500 characters (no paragraph or
sentence boundary exists to split at). -/
theorem dropWhile_no (p : Char → Bool) (l : List Char) (h : ∀ c ∈ l, p c = false) :
    l.dropWhile p = l := by
  cases l with
  | nil => rfl
  | cons c rest =>
    rw [List.dropWhile_cons, h c (by simp)]
    simp

theorem dropEndWhile_no (p : Char → Bool) (l : List Char) (h : ∀ c ∈ l, p c = false) :
    dropEndWhile p l = l := by
  induction l with
  | nil => rfl
  | cons c rest ih =>
    have hr : dropEndWhile p rest = rest := ih (fun c hc => h c (by simp [hc]))
    cases hrest : rest with
    | nil =>
      simp [dropEndWhile, hrest, h c (by simp)]
    | cons d t =>
      subst hrest
      have hd : dropEndWhile p (c :: d :: t)
          = if (dropEndWhile p (d :: t)).isEmpty then (if p c then [] else [c])
            else c :: dropEndWhile p (d :: t) := rfl
      rw [hd, hr]
      simp

theorem pyStrip_no_space (l : List Char) (h : ∀ c ∈ l, pyIsSpace c = false) :
    pyStrip l = l := by
  unfold pyStrip
  rw [dropWhile_no pyIsSpace l h, dropEndWhile_no pyIsSpace l h]

theorem replicate_z_no_space (n : ℕ) : ∀ c ∈ List.replicate n 'z', pyIsSpace c = false := by
  intro c hc
  rw [List.eq_of_mem_replicate hc]
  decide

theorem splitOnPara_no_newline (l : List Char) (h : ∀ c ∈ l, ¬ c = '\n') :
    splitOnPara l = [l] := by
  induction l with
  | nil => rfl
  | cons c rest ih =>
    have hc : ¬ c = '\n' := h c (by simp)
    have hr : splitOnPara rest = [rest] := ih (fun d hd => h d (by simp [hd]))
    rw [splitOnPara.eq_def]
    split
    · rename_i heq
      exact absurd heq (by simp)
    · rename_i heq
      rw [List.cons.injEq] at heq
      exact absurd heq.1 hc
    · rename_i hne
      rw [List.cons.injEq] at hne
      obtain ⟨h1, h2⟩ := hne
      subst h1
      subst h2
      rw [hr]

theorem splitSentAux_no_space :
    ∀ (l cur : List Char), (∀ c ∈ l, pyIsSpace c = false) →
      splitSentAux l cur = [cur.reverse ++ l] := by
  intro l
  induction l with
  | nil => intro cur _; simp [splitSentAux]
  | cons c rest ih =>
    intro cur h
    rw [splitSentAux.eq_def]
    show (if (pyIsSpace c && match cur with | p :: _ => sentPunct p | [] => false) = true then
        cur.reverse :: splitSentAux (rest.dropWhile pyIsSpace) []
      else splitSentAux rest (c :: cur)) = [cur.reverse ++ c :: rest]
    rw [h c (by simp)]
    simp only [Bool.false_and, Bool.false_eq_true, if_false]
    rw [ih (c :: cur) (fun d hd => h d (by simp [hd]))]
    simp

theorem splitSent_no_space (l : List Char) (h : ∀ c ∈ l, pyIsSpace c = false) :
    splitSent l = [l] := by
  unfold splitSent
  rw [splitSentAux_no_space l [] h]
  simp

theorem sentStep_eq (maxc : ℕ) (parts : List (List Char)) (sbuf : List Char)
    (seg0 : List Char) :
    sentStep maxc (parts, sbuf) seg0 =
      if (pyStrip seg0).isEmpty then (parts, sbuf)
      else if sbuf.length + (pyStrip seg0).length + 1 ≤ maxc then
        (parts, pyStrip (sbuf ++ [' '] ++ pyStrip seg0))
      else ((if sbuf.isEmpty then parts else parts ++ [sbuf]), pyStrip seg0) := rfl

theorem paraStep_eq (maxc : ℕ) (parts : List (List Char)) (buf : List Char)
    (para0 : List Char) :
    paraStep maxc (parts, buf) para0 =
      if (pyStrip para0).isEmpty then (parts, buf)
      else if buf.length + (pyStrip para0).length + 2 ≤ maxc then
        (parts, pyStrip (buf ++ ['\n', '\n'] ++ pyStrip para0))
      else if maxc < (pyStrip para0).length then
        ((if ((splitSent (pyStrip para0)).foldl (sentStep maxc)
              ((if buf.isEmpty then parts else parts ++ [buf]), [])).2.isEmpty
          then ((splitSent (pyStrip para0)).foldl (sentStep maxc)
              ((if buf.isEmpty then parts else parts ++ [buf]), [])).1
          else ((splitSent (pyStrip para0)).foldl (sentStep maxc)
              ((if buf.isEmpty then parts else parts ++ [buf]), [])).1
            ++ [((splitSent (pyStrip para0)).foldl (sentStep maxc)
              ((if buf.isEmpty then parts else parts ++ [buf]), [])).2]), [])
      else ((if buf.isEmpty then parts else parts ++ [buf]), pyStrip para0) := rfl

theorem split_single_long (n maxc : ℕ) (h : maxc < n) :
    _split_text_for_translation (zText n) maxc = [zText n] := by
  have hno := replicate_z_no_space n
  have hstrip : pyStrip (List.replicate n 'z') = List.replicate n 'z' :=
    pyStrip_no_space _ hno
  have hlen : (List.replicate n 'z').length = n := List.length_replicate n 'z'
  have hnonempty : ¬ (List.replicate n 'z') = [] := by
    intro heq
    have := congrArg List.length heq
    rw [hlen] at this
    simp at this
    omega
  have hEmpFalse : ¬ ((List.replicate n 'z').isEmpty = true) :=
    fun hh => hnonempty (List.isEmpty_iff.mp hh)
  have hsent : splitSent (List.replicate n 'z') = [List.replicate n 'z'] :=
    splitSent_no_space _ hno
  have hsentStep : sentStep maxc ([], []) (List.replicate n 'z')
      = ([], List.replicate n 'z') := by
    rw [sentStep_eq, hstrip]
    rw [if_neg hEmpFalse]
    rw [if_neg (by simp [hlen]; omega)]
    simp
  have hparaStep : paraStep maxc ([], []) (List.replicate n 'z')
      = ([List.replicate n 'z'], []) := by
    rw [paraStep_eq, hstrip]
    rw [if_neg hEmpFalse]
    rw [if_neg (by simp [hlen]; omega)]
    rw [if_pos (by simp [hlen]; omega)]
    simp only [List.isEmpty_nil, if_true]
    rw [hsent, List.foldl_cons, List.foldl_nil, hsentStep]
    rw [if_neg hEmpFalse]
    simp
  have hdata : (zText n).data = List.replicate n 'z' := rfl
  unfold _split_text_for_translation
  rw [hdata, hstrip]
  rw [if_neg (by rw [hlen]; omega)]
  rw [splitOnPara_no_newline _ (fun c hc => by rw [List.eq_of_mem_replicate hc]; decide)]
  rw [List.foldl_cons, List.foldl_nil, hparaStep]
  simp [zText]

/-- Counterexample for C7 as frozen: a 2600-character single-sentence text
is returned as one chunk of 2600 > 2500 characters (no paragraph or
sentence boundary exists to split at). -/
theorem C7_counterexample :
    ∃ part ∈ _split_text_for_translation (zText 2600) 2500,
      2500 < part.data.length := by
  rw [split_single_long 2600 2500 (by norm_num)]
  refine ⟨zText 2600, by simp, ?_⟩
  rw [show (zText 2600).data = List.replicate 2600 'z' from rfl, List.length_replicate]
  norm_num

/-! Helper lemmas: the translation orchestrator (claims C3, C4, C10). -/

theorem translate_text_short (oracle : ℕ → Except String String) (st : TState)
    (text : String) (cap : Bool) (retries : ℕ)
    (h : (pyStrip text.data).length < 2) :
    translate_text oracle st text cap retries = (text, st) := by
  simp only [translate_text]
  rw [if_pos h]

theorem translate_text_hit (oracle : ℕ → Except String String) (st : TState)
    (text : String) (cap : Bool) (retries : ℕ) (v : String)
    (h2 : ¬ (pyStrip text.data).length < 2)
    (hv : lruLookup st.cache.data (_cache_key text cap) = some v) :
    translate_text oracle st text cap retries =
      (v, { st with cache := ⟨st.cache.max_size,
        st.cache.data.filter (fun p => !(p.1 == _cache_key text cap))
          ++ [(_cache_key text cap, v)]⟩ }) := by
  simp only [translate_text, LRUCache.get]
  rw [if_neg h2, hv]

theorem translate_text_miss (oracle : ℕ → Except String String) (st : TState)
    (text : String) (cap : Bool) (retries : ℕ)
    (h2 : ¬ (pyStrip text.data).length < 2)
    (hm : lruLookup st.cache.data (_cache_key text cap) = none) :
    translate_text oracle st text cap retries =
      (pyStripStr (joinNN ((_split_text_for_translation text 2500).foldl
          (chunkStep oracle retries) ([], st.errors, st.counter)).1),
        ⟨st.cache.set (_cache_key text cap)
            (pyStripStr (joinNN ((_split_text_for_translation text 2500).foldl
              (chunkStep oracle retries) ([], st.errors, st.counter)).1)),
          ((_split_text_for_translation text 2500).foldl
            (chunkStep oracle retries) ([], st.errors, st.counter)).2.1,
          ((_split_text_for_translation text 2500).foldl
            (chunkStep oracle retries) ([], st.errors, st.counter)).2.2⟩) := by
  simp only [translate_text, LRUCache.get]
  rw [if_neg h2, hm]

theorem attemptLoop_allfail (oracle : ℕ → Except String String)
    (hall : ∀ k, ∃ e, oracle k = Except.error e) :
    ∀ (n counter : ℕ), 1 ≤ n →
      ∃ e, attemptLoop oracle counter n = (.failed e, counter + n) := by
  intro n
  induction n with
  | zero => intro counter h; omega
  | succ m ih =>
    intro counter _
    rcases hall counter with ⟨e, he⟩
    cases m with
    | zero =>
      refine ⟨e, ?_⟩
      unfold attemptLoop
      rw [he]
      rfl
    | succ m' =>
      rcases ih (counter + 1) (by omega) with ⟨e', he'⟩
      refine ⟨e', ?_⟩
      unfold attemptLoop
      rw [he, he']
      show (PartOutcome.failed e', counter + 1 + (m' + 1))
        = (PartOutcome.failed e', counter + (m' + 1 + 1))
      rw [show counter + 1 + (m' + 1) = counter + (m' + 1 + 1) from by omega]

theorem chunkFold_allfail (oracle : ℕ → Except String String) (retries : ℕ)
    (hall : ∀ k, ∃ e, oracle k = Except.error e) (hr : 1 ≤ retries) :
    ∀ (parts : List String) (outs errs : List String) (counter : ℕ),
      ∃ es : List String, es.length = parts.length ∧
        parts.foldl (chunkStep oracle retries) (outs, errs, counter)
          = (outs ++ parts, errs ++ es, counter + retries * parts.length) := by
  intro parts
  induction parts with
  | nil =>
    intro outs errs counter
    exact ⟨[], rfl, by simp⟩
  | cons p ps ih =>
    intro outs errs counter
    rcases attemptLoop_allfail oracle hall retries counter hr with ⟨e, he⟩
    have hstep : chunkStep oracle retries (outs, errs, counter) p
        = (outs ++ [p], errs ++ [e], counter + retries) := by
      unfold chunkStep
      rw [he]
    rcases ih (outs ++ [p]) (errs ++ [e]) (counter + retries) with ⟨es', hlen', hfold'⟩
    refine ⟨e :: es', by simp [hlen'], ?_⟩
    rw [List.foldl_cons, hstep, hfold']
    congr 1
    · simp
    · congr 1
      · simp
      · simp [List.length_cons]
        ring

/-- C3: a chunk (here: any text whose chunking is arbitrary) for which the
external call fails on every attempt is retried exactly `retries` times
per chunk — the invocation counter advances by exactly
`retries * (number of chunks)`, no more — the returned text is the
original source text of the chunks (joined and stripped as the source
does), one error per failed chunk is appended to the job-scoped error
log, and no exception escapes (the embedding is a total function, as the
blanket `except` of the source catches every failure). -/
theorem C3_retry_exact (oracle : ℕ → Except String String) (st : TState)
    (text : String) (retries : ℕ)
    (hall : ∀ k, ∃ e, oracle k = Except.error e)
    (hlen : 2 ≤ (pyStrip text.data).length)
    (hmiss : lruLookup st.cache.data (_cache_key text false) = none)
    (hr : 1 ≤ retries) :
    (translate_text oracle st text false retries).1
        = pyStripStr (joinNN (_split_text_for_translation text 2500)) ∧
    (translate_text oracle st text false retries).2.counter
        = st.counter + retries * (_split_text_for_translation text 2500).length ∧
    ∃ es : List String, es.length = (_split_text_for_translation text 2500).length ∧
      (translate_text oracle st text false retries).2.errors = st.errors ++ es := by
  have h2 : ¬ (pyStrip text.data).length < 2 := by omega
  rcases chunkFold_allfail oracle retries hall hr (_split_text_for_translation text 2500)
    [] st.errors st.counter with ⟨es, hlen_es, hfold⟩
  rw [translate_text_miss oracle st text false retries h2 hmiss]
  rw [hfold]
  exact ⟨by simp, rfl, es, hlen_es, rfl⟩

/-- Witness for C3: with an always-failing network call, translating
"hello!" from the initial state makes exactly 3 invocations, returns the
source text, and logs one error. -/
theorem C3_witness :
    (translate_text oracleDown initState "hello!" false 3).1 = "hello!" ∧
    (translate_text oracleDown initState "hello!" false 3).2.counter = 3 := by
  have h := C3_retry_exact oracleDown initState "hello!" 3
    (fun k => ⟨"connection error", rfl⟩) (by decide) (by decide) (by decide)
  refine ⟨h.1.trans (by decide), h.2.1.trans ?_⟩
  rw [show (_split_text_for_translation "hello!" 2500).length = 1 from by decide]
  decide

/-! Claim C4: cache behaviour. -/

theorem find?_filter_ne (data : List (String × String)) (k : String) :
    (data.filter (fun p => !(p.1 == k))).find? (fun p => p.1 == k) = none := by
  rw [List.find?_eq_none]
  intro x hx
  rcases List.mem_filter.mp hx with ⟨-, hp⟩
  simp at hp
  simp [hp]

theorem lruLookup_move (data : List (String × String)) (k v : String) :
    lruLookup (data.filter (fun p => !(p.1 == k)) ++ [(k, v)]) k = some v := by
  unfold lruLookup
  rw [List.find?_append, find?_filter_ne]
  simp [List.find?]

theorem lruLookup_set (c : LRUCache) (k v : String) (hmax : 1 ≤ c.max_size) :
    lruLookup (c.set k v).data k = some v := by
  simp only [LRUCache.set, lruLookup]
  have hle : (c.data.filter (fun p => !(p.1 == k)) ++ [(k, v)]).length - c.max_size
      ≤ (c.data.filter (fun p => !(p.1 == k))).length := by
    rw [List.length_append]
    simp
    omega
  rw [List.drop_append_of_le_length hle]
  rw [List.find?_append]
  have : ((c.data.filter (fun p => !(p.1 == k))).drop
      ((c.data.filter (fun p => !(p.1 == k)) ++ [(k, v)]).length - c.max_size)).find?
        (fun p => p.1 == k) = none := by
    rw [List.find?_eq_none]
    intro x hx
    have hx' : x ∈ c.data.filter (fun p => !(p.1 == k)) :=
      (List.drop_sublist _ _).subset hx
    rcases List.mem_filter.mp hx' with ⟨-, hp⟩
    simp at hp
    simp [hp]
  rw [this]
  simp [List.find?]

/-- C4 (amended): after any call of `translate_text`, an immediately
following call with the SAME RAW text and the same caption flag is served
entirely from the cache: it returns the same string and performs no
additional network invocation, whatever the network would answer.  The
cache key is a hash of the raw text and the flag — not of normalized
text, see the counterexample. -/
theorem C4_second_call_cached (oracle₁ oracle₂ : ℕ → Except String String)
    (st : TState) (text : String) (flag : Bool) (retries₁ retries₂ : ℕ)
    (hmax : 1 ≤ st.cache.max_size) :
    (translate_text oracle₂ (translate_text oracle₁ st text flag retries₁).2
        text flag retries₂).1
      = (translate_text oracle₁ st text flag retries₁).1 ∧
    (translate_text oracle₂ (translate_text oracle₁ st text flag retries₁).2
        text flag retries₂).2.counter
      = (translate_text oracle₁ st text flag retries₁).2.counter := by
  by_cases hshort : (pyStrip text.data).length < 2
  · rw [translate_text_short oracle₁ st text flag retries₁ hshort]
    rw [translate_text_short oracle₂ st text flag retries₂ hshort]
    exact ⟨rfl, rfl⟩
  · rcases hl : lruLookup st.cache.data (_cache_key text flag) with _ | v
    · rw [translate_text_miss oracle₁ st text flag retries₁ hshort hl]
      have hset : lruLookup ((st.cache.set (_cache_key text flag)
          (pyStripStr (joinNN ((_split_text_for_translation text 2500).foldl
            (chunkStep oracle₁ retries₁) ([], st.errors, st.counter)).1))).data)
            (_cache_key text flag)
          = some (pyStripStr (joinNN ((_split_text_for_translation text 2500).foldl
            (chunkStep oracle₁ retries₁) ([], st.errors, st.counter)).1)) :=
        lruLookup_set st.cache _ _ hmax
      rw [translate_text_hit oracle₂ _ text flag retries₂ _ hshort hset]
      exact ⟨rfl, rfl⟩
    · rw [translate_text_hit oracle₁ st text flag retries₁ v hshort hl]
      have hmove : lruLookup (st.cache.data.filter
            (fun p => !(p.1 == _cache_key text flag)) ++ [(_cache_key text flag, v)])
          (_cache_key text flag) = some v := lruLookup_move st.cache.data _ v
      rw [translate_text_hit oracle₂ _ text flag retries₂ v hshort hmove]
      exact ⟨rfl, rfl⟩

/-- Witness for C4: after one successful translation of "hello", a second
call — even against a dead network — returns the cached translation with
the invocation counter unchanged. -/
theorem C4_witness :
    (translate_text oracleDown (translate_text oracleOk initState "hello" false 3).2
        "hello" false 3).1
      = (translate_text oracleOk initState "hello" false 3).1 ∧
    (translate_text oracleDown (translate_text oracleOk initState "hello" false 3).2
        "hello" false 3).2.counter
      = (translate_text oracleOk initState "hello" false 3).2.counter :=
  C4_second_call_cached oracleOk oracleDown initState "hello" false 3 3 (by decide)

/-- Counterexample for C4 as frozen: " hello" and "hello" have the same
normalized (stripped) text, but the cache key is the hash of the RAW
text, so the second call misses the cache and performs a second network
invocation (counter 1 → 2). -/
theorem C4_counterexample :
    pyStripStr " hello" = pyStripStr "hello" ∧
    (translate_text oracleOk initState "hello" false 3).2.counter = 1 ∧
    (translate_text oracleOk ((translate_text oracleOk initState "hello" false 3).2)
        " hello" false 3).2.counter = 2 := by
  decide

/-! Claim C10: the failure fallback is cached, and cached entries are
evicted by the bounded LRU after enough distinct newer entries. -/

theorem lruLookup_not_mem (data : List (String × String)) (k : String)
    (h : ¬ k ∈ data.map Prod.fst) : lruLookup data k = none := by
  have hf : data.find? (fun p => p.1 == k) = none := by
    rw [List.find?_eq_none]
    intro x hx hbeq
    exact h (List.mem_map.mpr ⟨x, hx, by simpa using hbeq⟩)
  unfold lruLookup
  rw [hf]

/-- C10 (amended): when every attempt fails, `translate_text` stores the
untranslated fallback in the LRU cache under the same key a successful
translation would use, and a following call with the same text and flag
returns that fallback from the cache with no further translation attempt
(for ANY behaviour of the network on the second call) — but only while
the entry remains cached: it can be evicted after enough distinct newer
insertions (see the counterexample), after which the text is retried. -/
theorem C10_fallback_cached (oracle₁ oracle₂ : ℕ → Except String String)
    (st : TState) (text : String) (flag : Bool) (retries : ℕ)
    (hall : ∀ k, ∃ e, oracle₁ k = Except.error e)
    (hlen : 2 ≤ (pyStrip text.data).length)
    (hmiss : lruLookup st.cache.data (_cache_key text flag) = none)
    (hmax : 1 ≤ st.cache.max_size) (hr : 1 ≤ retries) :
    (translate_text oracle₁ st text flag retries).1
        = pyStripStr (joinNN (_split_text_for_translation text 2500)) ∧
    lruLookup (translate_text oracle₁ st text flag retries).2.cache.data
        (_cache_key text flag)
      = some (pyStripStr (joinNN (_split_text_for_translation text 2500))) ∧
    (translate_text oracle₂ (translate_text oracle₁ st text flag retries).2
        text flag retries).1
      = pyStripStr (joinNN (_split_text_for_translation text 2500)) ∧
    (translate_text oracle₂ (translate_text oracle₁ st text flag retries).2
        text flag retries).2.counter
      = (translate_text oracle₁ st text flag retries).2.counter := by
  have h2 : ¬ (pyStrip text.data).length < 2 := by omega
  rcases chunkFold_allfail oracle₁ retries hall hr (_split_text_for_translation text 2500)
    [] st.errors st.counter with ⟨es, hes, hfold⟩
  have hmiss_eq := translate_text_miss oracle₁ st text flag retries h2 hmiss
  rw [hfold] at hmiss_eq
  simp only [List.nil_append] at hmiss_eq
  rw [hmiss_eq]
  have hset : lruLookup ((st.cache.set (_cache_key text flag)
        (pyStripStr (joinNN (_split_text_for_translation text 2500)))).data)
        (_cache_key text flag)
      = some (pyStripStr (joinNN (_split_text_for_translation text 2500))) :=
    lruLookup_set st.cache _ _ hmax
  refine ⟨rfl, hset, ?_, ?_⟩
  · rw [translate_text_hit oracle₂ _ text flag retries _ h2 hset]
  · rw [translate_text_hit oracle₂ _ text flag retries _ h2 hset]

/-- Witness for C10: the fallback for "hello!" is cached; the immediate
second call returns it without any new invocation. -/
theorem C10_witness :
    (translate_text oracleOk (translate_text oracleDown initState "hello!" false 3).2
        "hello!" false 3).1 = "hello!" ∧
    (translate_text oracleOk (translate_text oracleDown initState "hello!" false 3).2
        "hello!" false 3).2.counter
      = (translate_text oracleDown initState "hello!" false 3).2.counter := by
  have h := C10_fallback_cached oracleDown oracleOk initState "hello!" false 3
    (fun k => ⟨"connection error", rfl⟩) (by decide) (by decide) (by decide) (by decide)
  exact ⟨h.2.2.1.trans (by decide), h.2.2.2⟩

theorem translate_fresh_keys (oracle : ℕ → Except String String) (st : TState)
    (t : String) (flag : Bool) (retries : ℕ)
    (h2 : ¬ (pyStrip t.data).length < 2)
    (hm : lruLookup st.cache.data (_cache_key t flag) = none) :
    (translate_text oracle st t flag retries).2.cache.max_size = st.cache.max_size ∧
    (translate_text oracle st t flag retries).2.cache.data.map Prod.fst
      = (st.cache.data.map Prod.fst ++ [_cache_key t flag]).drop
          ((st.cache.data.length + 1) - st.cache.max_size) := by
  have hfilter : st.cache.data.filter (fun p => !(p.1 == _cache_key t flag))
      = st.cache.data := by
    rw [List.filter_eq_self]
    intro a ha
    have hf : st.cache.data.find? (fun p => p.1 == _cache_key t flag) = none := by
      unfold lruLookup at hm
      rcases hfind : st.cache.data.find? (fun p => p.1 == _cache_key t flag) with _ | p
      · exact hfind
      · rw [hfind] at hm
        cases hm
    have := List.find?_eq_none.mp hf a ha
    simpa using this
  rw [translate_text_miss oracle st t flag retries h2 hm]
  refine ⟨rfl, ?_⟩
  show ((st.cache.set (_cache_key t flag) _).data).map Prod.fst = _
  simp only [LRUCache.set]
  rw [hfilter, List.map_drop, List.map_append]
  simp [List.length_append]

theorem foldFresh_keys (oracle : ℕ → Except String String) :
    ∀ (ts : List String) (st : TState),
      (∀ t ∈ ts, ¬ (pyStrip t.data).length < 2) →
      (st.cache.data.map Prod.fst ++ ts.map (fun t => _cache_key t false)).Nodup →
      st.cache.data.length + ts.length ≤ st.cache.max_size →
      (ts.foldl (transStep oracle) st).cache.max_size = st.cache.max_size ∧
      (ts.foldl (transStep oracle) st).cache.data.map Prod.fst
        = st.cache.data.map Prod.fst ++ ts.map (fun t => _cache_key t false) := by
  intro ts
  induction ts with
  | nil => intro st _ _ _; exact ⟨rfl, by simp⟩
  | cons t ts ih =>
    intro st hlen hnodup hcap
    rw [List.foldl_cons]
    have hknotin : ¬ _cache_key t false ∈ st.cache.data.map Prod.fst := by
      intro hin
      rw [List.map_cons] at hnodup
      exact (List.disjoint_of_nodup_append hnodup) hin (by simp)
    have hm : lruLookup st.cache.data (_cache_key t false) =
        none := lruLookup_not_mem _ _ hknotin
    have ht2 : ¬ (pyStrip t.data).length < 2 := hlen t (by simp)
    have hfresh := translate_fresh_keys oracle st t false 3 ht2 hm
    have hdrop0 : (st.cache.data.length + 1) - st.cache.max_size = 0 := by
      rw [List.length_cons] at hcap
      omega
    rw [hdrop0, List.drop_zero] at hfresh
    have hlen1 : (transStep oracle st t).cache.data.length = st.cache.data.length + 1 := by
      have := congrArg List.length hfresh.2
      simp only [List.length_map, List.length_append, List.length_cons,
        List.length_nil] at this
      unfold transStep
      omega
    have hih := ih (transStep oracle st t)
      (fun u hu => hlen u (by simp [hu]))
      (by
        unfold transStep
        rw [hfresh.2]
        rw [List.append_assoc, List.singleton_append]
        rw [List.map_cons] at hnodup
        exact hnodup)
      (by
        rw [hlen1]
        unfold transStep
        rw [hfresh.1]
        rw [List.length_cons] at hcap
        omega)
    constructor
    · rw [hih.1]
      unfold transStep
      rw [hfresh.1]
    · rw [hih.2]
      unfold transStep
      rw [hfresh.2]
      rw [List.append_assoc, List.singleton_append, List.map_cons]

theorem zKey_data_length (n : ℕ) :
    ((_cache_key (zText n) false).data).length = n + 4 := by
  show (((zText n) ++ "|txt").data).length = n + 4
  rw [String.data_append]
  rw [List.length_append]
  rw [show (zText n).data = List.replicate n 'z' from rfl, List.length_replicate]
  rfl

theorem zKey_inj {a b : ℕ}
    (h : _cache_key (zText a) false = _cache_key (zText b) false) : a = b := by
  have hl := congrArg (fun s => s.data.length) h
  simp only [zKey_data_length] at hl
  omega

theorem zKey_ne_hello (n : ℕ) :
    ¬ _cache_key (zText n) false = _cache_key "hello!" false := by
  intro h
  have hl := congrArg (fun s => s.data.length) h
  simp only [zKey_data_length] at hl
  rw [show ((_cache_key "hello!" false).data).length = 10 from by decide] at hl
  have hn6 : n = 6 := by omega
  subst hn6
  exact absurd h (by decide)

theorem fillTexts_strip (t : String) (ht : t ∈ fillTexts) :
    ¬ (pyStrip t.data).length < 2 := by
  rcases List.mem_map.mp ht with ⟨i, -, rfl⟩
  rw [show (zText (i + 2)).data = List.replicate (i + 2) 'z' from rfl]
  rw [pyStrip_no_space _ (replicate_z_no_space _), List.length_replicate]
  omega

theorem fillKeys_eq :
    fillTexts.map (fun t => _cache_key t false)
      = (List.range 2499).map (fun i => _cache_key (zText (i + 2)) false) := by
  unfold fillTexts
  rw [List.map_map]
  rfl

theorem fillKeys_nodup : (fillTexts.map (fun t => _cache_key t false)).Nodup := by
  rw [fillKeys_eq]
  refine (List.nodup_range 2499).map ?_
  intro i j h
  have := zKey_inj h
  omega

theorem hello_not_in_fillKeys :
    ¬ _cache_key "hello!" false ∈ fillTexts.map (fun t => _cache_key t false) := by
  rw [fillKeys_eq]
  intro hin
  rcases List.mem_map.mp hin with ⟨i, -, heq⟩
  exact zKey_ne_hello (i + 2) heq

theorem lastKey_not_in_fillKeys :
    ¬ _cache_key lastFill false ∈ fillTexts.map (fun t => _cache_key t false) := by
  rw [fillKeys_eq]
  intro hin
  rcases List.mem_map.mp hin with ⟨i, hi, heq⟩
  have := zKey_inj heq
  rw [List.mem_range] at hi
  omega

theorem lastKey_ne_hello : ¬ _cache_key "hello!" false = _cache_key lastFill false := by
  intro h
  exact zKey_ne_hello 2501 h.symm

theorem hello_fail_counter (s : TState)
    (hm : lruLookup s.cache.data (_cache_key "hello!" false) = none) :
    (translate_text oracleDown s "hello!" false 3).2.counter = s.counter + 3 := by
  rcases chunkFold_allfail oracleDown 3 (fun k => ⟨"connection error", rfl⟩) (by omega)
    (_split_text_for_translation "hello!" 2500) [] s.errors s.counter with ⟨es, -, hfoldc⟩
  rw [translate_text_miss oracleDown s "hello!" false 3 (by decide) hm, hfoldc]
  rw [show (_split_text_for_translation "hello!" 2500).length = 1 from by decide,
    Nat.mul_one]

theorem hello_fail_output (s : TState)
    (hm : lruLookup s.cache.data (_cache_key "hello!" false) = none) :
    (translate_text oracleDown s "hello!" false 3).1 = "hello!" := by
  rcases chunkFold_allfail oracleDown 3 (fun k => ⟨"connection error", rfl⟩) (by omega)
    (_split_text_for_translation "hello!" 2500) [] s.errors s.counter with ⟨es, -, hfoldc⟩
  rw [translate_text_miss oracleDown s "hello!" false 3 (by decide) hm, hfoldc]
  simp only [List.nil_append]
  decide

/-- Counterexample for C10 as frozen: "every later call … during the
process lifetime" fails.  After the failed translation of "hello!" is
cached, 2500 further distinct texts evict its entry from the
2500-capacity LRU, and the next call with "hello!" misses the cache and
attempts the translation again (3 more invocations), still falling back
to the source text. -/
theorem C10_counterexample :
    lruLookup (translate_text oracleOk (fillTexts.foldl (transStep oracleOk)
          (translate_text oracleDown initState "hello!" false 3).2)
        lastFill false 3).2.cache.data (_cache_key "hello!" false) = none ∧
    (translate_text oracleDown (translate_text oracleOk (fillTexts.foldl (transStep oracleOk)
          (translate_text oracleDown initState "hello!" false 3).2) lastFill false 3).2
        "hello!" false 3).2.counter
      = (translate_text oracleOk (fillTexts.foldl (transStep oracleOk)
          (translate_text oracleDown initState "hello!" false 3).2) lastFill false 3).2.counter
        + 3 ∧
    (translate_text oracleDown (translate_text oracleOk (fillTexts.foldl (transStep oracleOk)
          (translate_text oracleDown initState "hello!" false 3).2) lastFill false 3).2
        "hello!" false 3).1 = "hello!" := by
  have hst1 : (translate_text oracleDown initState "hello!" false 3).2
      = ⟨⟨2500, [(_cache_key "hello!" false, "hello!")]⟩, ["connection error"], 3⟩ := by
    decide
  rw [hst1]
  have hfold := foldFresh_keys oracleOk fillTexts
    ⟨⟨2500, [(_cache_key "hello!" false, "hello!")]⟩, ["connection error"], 3⟩
    fillTexts_strip
    (by
      simp only [List.map_cons, List.map_nil, List.singleton_append]
      rw [List.nodup_cons]
      exact ⟨hello_not_in_fillKeys, fillKeys_nodup⟩)
    (by
      simp [fillTexts, List.length_map, List.length_range])
  have hfill_len : fillTexts.length = 2499 := by
    simp [fillTexts, List.length_map, List.length_range]
  have hfold_len : (fillTexts.foldl (transStep oracleOk)
      ⟨⟨2500, [(_cache_key "hello!" false, "hello!")]⟩,
        ["connection error"], 3⟩).cache.data.length = 2500 := by
    have := congrArg List.length hfold.2
    simp only [List.length_map, List.length_append, List.length_cons, List.length_nil,
      hfill_len] at this
    omega
  have hlast2 : ¬ (pyStrip lastFill.data).length < 2 := by
    rw [show lastFill.data = List.replicate 2501 'z' from rfl]
    rw [pyStrip_no_space _ (replicate_z_no_space _), List.length_replicate]
    omega
  have hlastmiss : lruLookup (fillTexts.foldl (transStep oracleOk)
      ⟨⟨2500, [(_cache_key "hello!" false, "hello!")]⟩,
        ["connection error"], 3⟩).cache.data (_cache_key lastFill false) = none := by
    apply lruLookup_not_mem
    rw [hfold.2]
    simp only [List.map_cons, List.map_nil, List.singleton_append, List.mem_cons]
    rintro (h | h)
    · exact lastKey_ne_hello h.symm
    · exact lastKey_not_in_fillKeys h
  have hlastfresh := translate_fresh_keys oracleOk
    (fillTexts.foldl (transStep oracleOk)
      ⟨⟨2500, [(_cache_key "hello!" false, "hello!")]⟩, ["connection error"], 3⟩)
    lastFill false 3 hlast2 hlastmiss
  have hst3keys : (translate_text oracleOk (fillTexts.foldl (transStep oracleOk)
        ⟨⟨2500, [(_cache_key "hello!" false, "hello!")]⟩, ["connection error"], 3⟩)
      lastFill false 3).2.cache.data.map Prod.fst
      = fillTexts.map (fun t => _cache_key t false) ++ [_cache_key lastFill false] := by
    rw [hlastfresh.2, hfold_len, hfold.1]
    rw [hfold.2]
    simp only [List.map_cons, List.map_nil, List.singleton_append]
    rw [show (2500 + 1) - 2500 = 1 from by omega]
    rw [show ((_cache_key "hello!" false :: fillTexts.map (fun t => _cache_key t false))
          ++ [_cache_key lastFill false])
        = _cache_key "hello!" false :: (fillTexts.map (fun t => _cache_key t false)
          ++ [_cache_key lastFill false]) from by simp]
    rw [List.drop_one, List.tail_cons]
  have hhello_miss : lruLookup (translate_text oracleOk (fillTexts.foldl (transStep oracleOk)
        ⟨⟨2500, [(_cache_key "hello!" false, "hello!")]⟩, ["connection error"], 3⟩)
      lastFill false 3).2.cache.data (_cache_key "hello!" false) = none := by
    apply lruLookup_not_mem
    rw [hst3keys]
    rw [List.mem_append]
    rintro (h | h)
    · exact hello_not_in_fillKeys h
    · rcases List.mem_singleton.mp h with h
      exact lastKey_ne_hello h
  refine ⟨hhello_miss, ?_, ?_⟩
  · exact hello_fail_counter _ hhello_miss
  · exact hello_fail_output _ hhello_miss
